import Mathlib

/-!
Shallow embedding of the TCP-to-HTTP request parser
(internal/headers/headers.go and internal/request/request.go).

Byte strings are modelled as lists of characters (the code only compares
ASCII bytes).  The Go map inside the header store is modelled as an
association list whose keys are lower-cased; only Get/Set are used by the
parser, so map semantics coincide.  Go's fixed 1024-byte read buffer in
RequestFromReader is modelled as an unbounded buffer; the bounded loops of
parse and Headers.Parse are modelled with an explicit fuel argument that is
proved sufficient below.
-/

namespace TcpHttp

abbrev Bytes := List Char

/-- Index of the first occurrence of the CRLF separator, as computed by
bytes.Index(b, SEPARATOR) with SEPARATOR = "\r\n". -/
def findCRLF : Bytes → Option Nat
  | '\r' :: '\n' :: _ => some 0
  | _ :: rest => (findCRLF rest).map (· + 1)
  | [] => none

/-- Character class of unicode.IsSpace restricted to the ASCII range, as used
by bytes.TrimSpace in parseHeader. -/
def isGoSpace (c : Char) : Bool :=
  c = ' ' || c = '\t' || c = '\n' || c = '\x0b' || c = '\x0c' || c = '\r'

/-- bytes.TrimSpace restricted to ASCII input. -/
def trimSpace (s : Bytes) : Bytes :=
  ((s.dropWhile isGoSpace).reverse.dropWhile isGoSpace).reverse

/-- bytes.Split with a one-byte separator (and bytes.SplitN with n large
enough): splits on every occurrence of the separator. -/
def splitOnChar (sep : Char) : Bytes → List Bytes
  | [] => [[]]
  | c :: rest =>
    if c = sep then [] :: splitOnChar sep rest
    else
      match splitOnChar sep rest with
      | p :: ps => (c :: p) :: ps
      | [] => [[c]]

/-- bytes.SplitN(s, sep, 2) with a one-byte separator: cut at the first
occurrence, or report that the separator is absent. -/
def splitFirst (sep : Char) : Bytes → Option (Bytes × Bytes)
  | [] => none
  | c :: rest =>
    if c = sep then some ([], rest)
    else (splitFirst sep rest).map (fun p => (c :: p.1, p.2))

/-- isToken from headers.go: every byte is alphanumeric or one of the
permitted punctuation characters.  (The empty string passes vacuously,
exactly as in the source.) -/
def isTokenChar (c : Char) : Bool :=
  ('a' ≤ c && c ≤ 'z') || ('A' ≤ c && c ≤ 'Z') || ('0' ≤ c && c ≤ '9') ||
  c = '!' || c = '#' || c = '$' || c = '%' || c = '&' || c = '\'' ||
  c = '*' || c = '+' || c = '-' || c = '.' || c = '^' || c = '_' ||
  c = '`' || c = '|' || c = '~'

/-- isToken from headers.go. -/
def isToken (s : Bytes) : Bool := s.all isTokenChar

/-- Errors produced inside Headers.Parse / parseHeader. -/
inductive HdrError
  | malformedLine
  | malformedFieldName
  | malformedName
deriving Repr, DecidableEq

/-- parseHeader from headers.go: split the field line at the first colon,
trim the value, reject a field name with a trailing space. -/
def parseHeader (fieldLine : Bytes) : Except HdrError (String × String) :=
  match splitFirst ':' fieldLine with
  | none => .error .malformedLine
  | some (fieldName, rest) =>
    let fieldValue := trimSpace rest
    if fieldName.getLast? = some ' ' then .error .malformedFieldName
    else .ok (String.mk fieldName, String.mk fieldValue)

/-- strings.ToLower restricted to ASCII, as used by the header store. -/
def lowerStr (s : String) : String := String.mk (s.toList.map Char.toLower)

/-- The header store: a Go map from lower-cased field name to value,
modelled as an association list with at most one entry per key. -/
structure Headers where
  headers : List (String × String)
deriving Repr, DecidableEq

/-- NewHeaders from headers.go. -/
def NewHeaders : Headers := ⟨[]⟩

/-- Map update used by Headers.Set: joining onto an existing entry with a
comma, or appending a fresh entry. -/
def setJoin (n v : String) : List (String × String) → List (String × String)
  | [] => [(n, v)]
  | (k, w) :: rest =>
    if k = n then (k, w ++ "," ++ v) :: rest else (k, w) :: setJoin n v rest

/-- Headers.Get from headers.go. -/
def Headers.Get (h : Headers) (name : String) : Option String :=
  (h.headers.find? (fun p => p.1 = lowerStr name)).map (·.2)

/-- Headers.Set from headers.go: case-fold the name; append with a comma if
already present, otherwise store as given. -/
def Headers.Set (h : Headers) (name value : String) : Headers :=
  ⟨setJoin (lowerStr name) value h.headers⟩

/-- Result of one call to Headers.Parse: the (possibly mutated) store, the
reported consumed-byte count, the section-complete flag and the error. -/
structure HPRes where
  hdrs : Headers
  n : Nat
  done : Bool
  err : Option HdrError
deriving Repr, DecidableEq

/-- The loop of Headers.Parse, with explicit fuel (none = fuel exhausted;
the wrapper below always supplies enough).  Mirrors headers.go: consume
CRLF-terminated lines one at a time; a line of length zero completes the
section; a malformed line aborts with consumed count 0 while keeping the
entries already stored. -/
def headersLoop : Nat → Headers → Bytes → Option HPRes
  | 0, _, _ => none
  | fuel + 1, h, data =>
    match findCRLF data with
    | none => some ⟨h, 0, false, none⟩
    | some idx =>
      if idx = 0 then some ⟨h, 2, true, none⟩
      else
        match parseHeader (data.take idx) with
        | .error e => some ⟨h, 0, false, some e⟩
        | .ok (fieldName, fieldValue) =>
          if ¬ isToken fieldName.toList then some ⟨h, 0, false, some .malformedName⟩
          else
            match headersLoop fuel (h.Set fieldName fieldValue) (data.drop (idx + 2)) with
            | none => none
            | some res =>
              if res.err.isSome then some res
              else some ⟨res.hdrs, idx + 2 + res.n, res.done, res.err⟩

/-- Headers.Parse from headers.go (fuel instantiated; sufficiency is proved
below). -/
def Headers.Parse (h : Headers) (data : Bytes) : HPRes :=
  match headersLoop (data.length + 1) h data with
  | some res => res
  | none => ⟨h, 0, false, none⟩


/-- The store update one iteration of the Headers.Parse loop performs on a
field line it accepts: the h.Set call on the parsed name and value.  A line
parseHeader rejects leaves the store unchanged. -/
def applyLine (h : Headers) (L : Bytes) : Headers :=
  match parseHeader L with
  | .ok (fn, fv) => h.Set fn fv
  | .error _ => h

/-- A field line one iteration of the Headers.Parse loop accepts: parseHeader
succeeds and the field name passes isToken. -/
def goodLine (L : Bytes) : Bool :=
  match parseHeader L with
  | .ok (fn, _) => isToken fn.toList
  | .error _ => false

/-- The error one iteration of the Headers.Parse loop reports for a field
line it rejects (none for an accepted line): the parseHeader error, or the
malformed-name error when the parsed field name fails isToken. -/
def lineError (L : Bytes) : Option HdrError :=
  match parseHeader L with
  | .ok (fn, _) => if isToken fn.toList then none else some .malformedName
  | .error e => some e

/-- strconv.Atoi on a 64-bit platform: optional sign, at least one digit,
value within the int64 range; anything else is an error (including range
overflow, on which Atoi reports ErrRange). -/
def Atoi (s : String) : Option Int :=
  let signed : Bool × List Char :=
    match s.toList with
    | '+' :: t => (false, t)
    | '-' :: t => (true, t)
    | t => (false, t)
  let ds := signed.2
  if ds = [] ∨ ¬ ds.all (fun c => '0' ≤ c && c ≤ '9') then none
  else
    let v : Nat := ds.foldl (fun acc c => 10 * acc + (c.toNat - '0'.toNat)) 0
    let i : Int := if signed.1 then -(v : Int) else (v : Int)
    if -(2 ^ 63) ≤ i ∧ i < 2 ^ 63 then some i else none

/-- The parser states of request.go. -/
inductive ParseState
  | StateInit
  | StateHeader
  | StateBody
  | StateDone
  | StateError
deriving Repr, DecidableEq

/-- The error values declared in request.go, plus the errors bubbled up from
Headers.Parse. -/
inductive ReqError
  | malformedRequestLine
  | unsupportedHttpVersion
  | requestInErrorState
  | headerErr (e : HdrError)
deriving Repr, DecidableEq

/-- ERROR_MALFORMED_REQUEST_LINE from request.go. -/
def ERROR_MALFORMED_REQUEST_LINE : ReqError := .malformedRequestLine

/-- ERROR_UNSUPPORTED_HTTP_VERSION from request.go (declared in the source
but never returned by any code path). -/
def ERROR_UNSUPPORTED_HTTP_VERSION : ReqError := .unsupportedHttpVersion

/-- ERROR_REQUEST_IN_ERROR_STATE from request.go. -/
def ERROR_REQUEST_IN_ERROR_STATE : ReqError := .requestInErrorState

/-- RequestLine from request.go (including its never-assigned Body field). -/
structure RequestLine where
  HttpVersion : String := ""
  RequestTarget : String := ""
  Method : String := ""
  Body : String := ""
deriving Repr, DecidableEq

/-- Request from request.go. -/
structure Request where
  RequestLine : RequestLine
  Headers : Headers
  Body : String
  state : ParseState
deriving Repr, DecidableEq

/-- newRequest from request.go. -/
def newRequest : Request :=
  { RequestLine := {}, Headers := NewHeaders, Body := "", state := .StateInit }

/-- getInt from request.go: read a header and convert with Atoi, falling
back to the default when absent or unparsable. -/
def getInt (h : Headers) (name : String) (defaultValue : Int) : Int :=
  match h.Get name with
  | none => defaultValue
  | some valueStr =>
    match Atoi valueStr with
    | none => defaultValue
    | some value => value

/-- Request.hasBody from request.go. -/
def Request.hasBody (r : Request) : Bool :=
  0 < getInt r.Headers "content-length" 0

/-- Request.done from request.go. -/
def Request.isFinished (r : Request) : Bool :=
  r.state = .StateDone || r.state = .StateError

/-- Outcome of parseRequestLine: (nil, 0, nil) when no CRLF is buffered yet,
an error, or a parsed line together with its consumed length. -/
inductive RLRes
  | needMore
  | err (e : ReqError)
  | ok (rl : RequestLine) (n : Nat)
deriving Repr, DecidableEq

/-- parseRequestLine from request.go.  Note that the version check returns
ERROR_MALFORMED_REQUEST_LINE, exactly as in the source; the declared
unsupported-version error value is unused there. -/
def parseRequestLine (b : Bytes) : RLRes :=
  match findCRLF b with
  | none => .needMore
  | some idx =>
    let line := b.take idx
    let read := idx + 2
    match splitOnChar ' ' line with
    | [p0, p1, p2] =>
      match splitOnChar '/' p2 with
      | [h0, h1] =>
        if h0 = "HTTP".toList ∧ h1 = "1.1".toList then
          .ok { Method := String.mk p0, RequestTarget := String.mk p1,
                HttpVersion := String.mk h1 } read
        else .err ERROR_MALFORMED_REQUEST_LINE
      | _ => .err ERROR_MALFORMED_REQUEST_LINE
    | _ => .err ERROR_MALFORMED_REQUEST_LINE

/-- Effect of one iteration of the loop in Request.parse on the not yet
consumed part of the buffer: consume n bytes and go around the loop again,
break out of the loop, return immediately (count 0 together with Go's error
value, which is nil for the request-line branch), or panic. -/
inductive StepRes
  | more (r : Request) (n : Nat)
  | stopR (r : Request)
  | fail (r : Request) (e : Option ReqError)
  | panicked
deriving Repr, DecidableEq

/-- One iteration of the switch statement in Request.parse, acting on the
current remainder of the buffer. -/
def parseStep (r : Request) (currentRead : Bytes) : StepRes :=
  match r.state with
  | .StateError => .fail r (some ERROR_REQUEST_IN_ERROR_STATE)
  | .StateInit =>
    match parseRequestLine currentRead with
    | .err _ => .fail { r with state := .StateError } none
    | .needMore => .stopR r
    | .ok rl n => .more { r with RequestLine := rl, state := .StateHeader } n
  | .StateHeader =>
    let res := r.Headers.Parse currentRead
    match res.err with
    | some e => .fail { r with Headers := res.hdrs } (some (.headerErr e))
    | none =>
      if res.n = 0 then .stopR { r with Headers := res.hdrs }
      else
        let nextState : ParseState :=
          if res.done then
            (if ({ r with Headers := res.hdrs } : Request).hasBody then .StateBody
             else .StateDone)
          else .StateHeader
        .more { r with Headers := res.hdrs, state := nextState } res.n
  | .StateBody =>
    let length : Int := getInt r.Headers "content-length" 0
    if length = 0 then .panicked
    else
      let remaining : Int := min (length - (r.Body.length : Int)) (currentRead.length : Int)
      if remaining < 0 then .panicked
      else
        let body : String := r.Body ++ String.mk (currentRead.take remaining.toNat)
        .more { r with Body := body,
                       state := if (body.length : Int) = length then .StateDone
                                else .StateBody }
          remaining.toNat
  | .StateDone => .stopR r

/-- Result of one call to Request.parse: the mutated request, the consumed
count and the returned error; or a panic; or fuel exhaustion (proved
impossible for the fuel supplied by the wrapper). -/
inductive PRes
  | ok (r : Request) (n : Nat) (e : Option ReqError)
  | panicRes
  | noFuel
deriving Repr, DecidableEq

/-- The loop of Request.parse with an explicit fuel bound and the running
read count. -/
def parseLoop : Nat → Request → Bytes → Nat → PRes
  | 0, _, _, _ => .noFuel
  | fuel + 1, r, rem, read =>
    if rem = [] then .ok r read none
    else
      match parseStep r rem with
      | .stopR r₁ => .ok r₁ read none
      | .fail r₁ e => .ok r₁ 0 e
      | .panicked => .panicRes
      | .more r₁ n => parseLoop fuel r₁ (rem.drop n) (read + n)

/-- Ranking of parser states used for the fuel bound: the only zero-byte
loop iteration moves from StateBody to StateDone. -/
def rank : ParseState → Nat
  | .StateDone => 0
  | .StateBody => 1
  | .StateInit => 2
  | .StateHeader => 3
  | .StateError => 4

/-- Request.parse from request.go, continuing from an arbitrary running
read count. -/
def parseAcc (r : Request) (rem : Bytes) (read : Nat) : PRes :=
  parseLoop (5 * rem.length + 5) r rem read

/-- Request.parse from request.go. -/
def Request.parse (r : Request) (data : Bytes) : PRes := parseAcc r data 0

/-- One Read result delivered to RequestFromReader: a chunk of bytes, or a
stream read error. -/
inductive ReadRes
  | chunk (b : Bytes)
  | readErr
deriving Repr, DecidableEq

/-- Outcome of RequestFromReader: the returned request on the nil-error
path, a surfaced stream read error, a surfaced parse error, an exhausted
reader (the Go loop would block on Read), or a panic inside parse. -/
inductive RFRes
  | ok (r : Request)
  | errRead
  | errParse (e : ReqError)
  | blocked
  | panicked
  | noFuel
deriving Repr, DecidableEq

/-- The loop of RequestFromReader: the buffer holds the unconsumed bytes
slid to the front; each iteration first tests request.done(), then reads,
then parses the whole buffered prefix and slides the remainder. -/
def fromReaderLoop (r : Request) (buf : Bytes) : List ReadRes → RFRes
  | [] => if r.isFinished then .ok r else .blocked
  | read :: rest =>
    if r.isFinished then .ok r
    else
      match read with
      | .readErr => .errRead
      | .chunk c =>
        match Request.parse r (buf ++ c) with
        | .ok _ _ (some e) => .errParse e
        | .ok r₁ n none => fromReaderLoop r₁ ((buf ++ c).drop n) rest
        | .panicRes => .panicked
        | .noFuel => .noFuel

/-- RequestFromReader from request.go, driven by a prescribed list of Read
results. -/
def RequestFromReader (reads : List ReadRes) : RFRes :=
  fromReaderLoop newRequest [] reads

/-- Feeding a list of fragments sequentially through Request.parse, sliding
the unconsumed remainder to the front each time, as the spec's
fragmentation-transparency property describes.  none records any parse
error or panic along the way. -/
def feedFrags (r : Request) (pending : Bytes) : List Bytes → Option (Request × Bytes)
  | [] => some (r, pending)
  | f :: fs =>
    match Request.parse r (pending ++ f) with
    | .ok r₁ n none => feedFrags r₁ ((pending ++ f).drop n) fs
    | _ => none

/-- Requests reachable from newRequest by repeated calls to Request.parse. -/
inductive Reachable : Request → Prop
  | base : Reachable newRequest
  | step {r : Request} {d : Bytes} {r₁ : Request} {n : Nat} {e : Option ReqError} :
      Reachable r → Request.parse r d = .ok r₁ n e → Reachable r₁


/-- True when a byte string ends with the CRLF separator. -/
def endsCRLF (l : Bytes) : Bool :=
  decide (l.reverse.take 2 = ['\n', '\r'])

/-- The content-length value the parser works with, as read by getInt. -/
def contentLen (r : Request) : Int := getInt r.Headers "content-length" 0

/-- Invariant maintained by the parser from newRequest on: the body buffer
is empty before the Body state, and in the Body state the declared
content-length is positive and strictly exceeds the bytes accumulated so
far. -/
def InvP (r : Request) : Prop :=
  (r.state = .StateInit ∨ r.state = .StateHeader → r.Body = "") ∧
  (r.state = .StateBody → 0 < contentLen r ∧ (r.Body.length : Int) < contentLen r)

/-- Invariant for the version field: once past StateInit, the stored
HTTP version is exactly "1.1". -/
def versionInv (r : Request) : Prop :=
  r.state = .StateHeader ∨ r.state = .StateBody ∨ r.state = .StateDone →
    r.RequestLine.HttpVersion = "1.1"

/-- A complete well-formed request byte string: one call to Request.parse
from the initial state consumes all of it without error and ends in
StateDone, the completed request being R. -/
def WellFormed (msg : Bytes) (R : Request) : Prop :=
  Request.parse newRequest msg = .ok R msg.length none ∧ R.state = .StateDone

/-! Facts about findCRLF. -/

theorem findCRLF_le {d : Bytes} {i : Nat} (h : findCRLF d = some i) : i + 2 ≤ d.length := by
  induction d using findCRLF.induct generalizing i with
  | case1 t => simp [findCRLF] at h; subst h; simp
  | case2 c rest hne ih =>
    rw [findCRLF] at h
    · obtain ⟨j, hj, hji⟩ := Option.map_eq_some'.mp h
      have := ih hj
      simp only [List.length_cons]
      omega
    · exact hne
  | case3 => simp [findCRLF] at h

theorem findCRLF_append {d e : Bytes} {i : Nat} (h : findCRLF d = some i) :
    findCRLF (d ++ e) = some i := by
  induction d using findCRLF.induct generalizing i with
  | case1 t => simp [findCRLF] at h ⊢; omega
  | case2 c rest hne ih =>
    rw [findCRLF] at h
    · obtain ⟨j, hj, hji⟩ := Option.map_eq_some'.mp h
      rw [List.cons_append, findCRLF]
      · rw [ih hj]; simp [hji]
      · intro tail hc hr
        cases rest with
        | nil => simp [findCRLF] at hj
        | cons a t =>
          simp only [List.cons_append, List.cons.injEq] at hr
          exact hne t hc (by simp [hr.1])
    · exact hne
  | case3 => simp [findCRLF] at h

theorem findCRLF_drop {d : Bytes} {i : Nat} (h : findCRLF d = some i) :
    d.drop i = '\r' :: '\n' :: d.drop (i + 2) := by
  induction d using findCRLF.induct generalizing i with
  | case1 t => simp [findCRLF] at h; subst h; simp
  | case2 c rest hne ih =>
    rw [findCRLF] at h
    · obtain ⟨j, hj, hji⟩ := Option.map_eq_some'.mp h
      subst hji
      simpa using ih hj
    · exact hne
  | case3 => simp [findCRLF] at h

theorem findCRLF_take {d : Bytes} {i : Nat} (h : findCRLF d = some i) :
    d.take (i + 2) = d.take i ++ ['\r', '\n'] := by
  rw [List.take_add, findCRLF_drop h]
  simp

/-- A byte string free of CRLF followed by the separator puts the first CRLF
exactly at the string's length. -/
theorem findCRLF_none_append {L : Bytes} (z : Bytes) (h : findCRLF L = none) :
    findCRLF (L ++ '\r' :: '\n' :: z) = some L.length := by
  induction L using findCRLF.induct with
  | case1 t => simp [findCRLF] at h
  | case2 c rest hne ih =>
    rw [findCRLF] at h
    · rw [List.cons_append, findCRLF]
      · rw [ih (Option.map_eq_none'.mp h)]
        simp
      · intro tail hc hr
        cases rest with
        | nil => simp at hr
        | cons a t =>
          simp only [List.cons_append, List.cons.injEq] at hr
          exact hne t hc (by simp [hr.1])
    · exact hne
  | case3 => rfl


/-! Fuel sufficiency and fuel irrelevance for the Headers.Parse loop. -/

theorem headersLoop_isSome {fuel : Nat} :
    ∀ {h : Headers} {data : Bytes}, data.length < fuel → (headersLoop fuel h data).isSome := by
  induction fuel with
  | zero => intro h data hl; omega
  | succ fuel ih =>
    intro h data hl
    rw [headersLoop]
    cases hf : findCRLF data with
    | none => simp
    | some idx =>
      have hle := findCRLF_le hf
      simp only
      split
      · simp
      · split
        · simp
        · split
          · simp
          · have hrec : ((data.drop (idx + 2)).length < fuel) := by
              simp only [List.length_drop]; omega
            cases hrs : headersLoop fuel (Headers.Set h _ _) (data.drop (idx + 2)) with
            | none => exact absurd (hrs ▸ ih hrec) (by simp)
            | some res => simp only; split <;> simp

theorem headersLoop_irrel {f₁ : Nat} :
    ∀ (f₂ : Nat) {h : Headers} {data : Bytes}, data.length < f₁ → data.length < f₂ →
      headersLoop f₁ h data = headersLoop f₂ h data := by
  induction f₁ with
  | zero => intro f₂ h data hl; omega
  | succ f₁ ih =>
    intro f₂ h data hl₁ hl₂
    cases f₂ with
    | zero => omega
    | succ f₂ =>
      rw [headersLoop, headersLoop]
      cases hf : findCRLF data with
      | none => simp
      | some idx =>
        have hle := findCRLF_le hf
        simp only
        split
        · rfl
        · split
          · rfl
          · split
            · rfl
            · rw [ih f₂ (by simp only [List.length_drop]; omega)
                  (by simp only [List.length_drop]; omega)]

/-- The fuelled loop with any sufficient fuel computes Headers.Parse. -/
theorem HL_eq (fuel : Nat) {h : Headers} {data : Bytes} (hf : data.length < fuel) :
    headersLoop fuel h data = some (Headers.Parse h data) := by
  rw [Headers.Parse]
  cases hx : headersLoop (data.length + 1) h data with
  | none =>
    have hs := @headersLoop_isSome (data.length + 1) h data (by omega)
    rw [hx] at hs
    simp at hs
  | some res =>
    rw [headersLoop_irrel (data.length + 1) hf (by omega), hx]

/-- One-step unfolding equation for Headers.Parse, eliminating the fuel. -/
theorem HP_unfold (h : Headers) (data : Bytes) :
    Headers.Parse h data =
      match findCRLF data with
      | none => ⟨h, 0, false, none⟩
      | some idx =>
        if idx = 0 then ⟨h, 2, true, none⟩
        else
          match parseHeader (data.take idx) with
          | .error e => ⟨h, 0, false, some e⟩
          | .ok (fieldName, fieldValue) =>
            if ¬ isToken fieldName.toList then ⟨h, 0, false, some .malformedName⟩
            else
              if (Headers.Parse (h.Set fieldName fieldValue) (data.drop (idx + 2))).err.isSome then
                Headers.Parse (h.Set fieldName fieldValue) (data.drop (idx + 2))
              else
                ⟨(Headers.Parse (h.Set fieldName fieldValue) (data.drop (idx + 2))).hdrs,
                 idx + 2 + (Headers.Parse (h.Set fieldName fieldValue) (data.drop (idx + 2))).n,
                 (Headers.Parse (h.Set fieldName fieldValue) (data.drop (idx + 2))).done,
                 (Headers.Parse (h.Set fieldName fieldValue) (data.drop (idx + 2))).err⟩ := by
  apply Option.some.inj
  rw [← HL_eq (data.length + 1) (by omega), headersLoop]
  cases hf : findCRLF data with
  | none => simp
  | some idx =>
    have hle := findCRLF_le hf
    simp only
    split
    · rfl
    · split
      · rfl
      · split
        · rfl
        · rw [HL_eq data.length (show (data.drop (idx + 2)).length < data.length by
            simp only [List.length_drop]; omega)]
          simp only
          split <;> simp_all

/-! Structural properties of Headers.Parse. -/

/-- Headers.Parse on a buffer of well-formed header lines followed by a
malformed one: the error of the malformed line is reported with consumed
count 0, while the store already holds the Set of every preceding line. -/
theorem HP_lines_err (bad rest : Bytes) (e : HdrError)
    (hbne : bad ≠ []) (hbf : findCRLF bad = none) (hbe : lineError bad = some e) :
    ∀ (ls : List Bytes) (h : Headers),
      (∀ L ∈ ls, L ≠ [] ∧ findCRLF L = none ∧ goodLine L = true) →
      Headers.Parse h
        ((ls.map (fun L => L ++ ['\r', '\n'])).flatten ++ (bad ++ '\r' :: '\n' :: rest)) =
        ⟨ls.foldl applyLine h, 0, false, some e⟩ := by
  intro ls
  induction ls with
  | nil =>
    intro h _
    rw [List.map_nil, List.flatten_nil, List.nil_append, List.foldl_nil]
    rw [HP_unfold, findCRLF_none_append _ hbf]
    dsimp only
    rw [if_neg (fun h0 => hbne (List.eq_nil_of_length_eq_zero h0))]
    rw [List.take_left]
    rw [lineError] at hbe
    cases hph : parseHeader bad with
    | error e' =>
      rw [hph] at hbe
      dsimp only at hbe
      simp only [Option.some.injEq] at hbe
      dsimp only
      rw [hbe]
    | ok p =>
      obtain ⟨fn, fv⟩ := p
      rw [hph] at hbe
      dsimp only at hbe
      dsimp only
      by_cases htok : isToken fn.toList = true
      · rw [if_pos htok] at hbe
        exact absurd hbe (by simp)
      · rw [if_neg htok] at hbe
        simp only [Option.some.injEq] at hbe
        rw [if_pos htok, hbe]
  | cons L ls ih =>
    intro h hls
    obtain ⟨hLne, hLf, hLg⟩ := hls L (List.mem_cons_self L ls)
    have hls' : ∀ L' ∈ ls, L' ≠ [] ∧ findCRLF L' = none ∧ goodLine L' = true :=
      fun L' hm => hls L' (List.mem_cons_of_mem L hm)
    rw [List.map_cons, List.flatten_cons]
    simp only [List.append_assoc, List.cons_append, List.nil_append]
    rw [HP_unfold, findCRLF_none_append _ hLf]
    dsimp only
    rw [if_neg (fun h0 => hLne (List.eq_nil_of_length_eq_zero h0))]
    rw [List.take_left]
    cases hph : parseHeader L with
    | error e' =>
      rw [goodLine, hph] at hLg
      dsimp only at hLg
      exact absurd hLg (by simp)
    | ok p =>
      obtain ⟨fn, fv⟩ := p
      rw [goodLine, hph] at hLg
      dsimp only at hLg
      dsimp only
      rw [if_neg (fun hcon => hcon hLg)]
      have hdrop : (L ++ '\r' :: '\n' ::
          ((ls.map (fun L => L ++ ['\r', '\n'])).flatten ++ (bad ++ '\r' :: '\n' :: rest))).drop
            (L.length + 2) =
          (ls.map (fun L => L ++ ['\r', '\n'])).flatten ++ (bad ++ '\r' :: '\n' :: rest) := by
        simp [List.drop_append]
      rw [hdrop]
      rw [ih (h.Set fn fv) hls']
      dsimp only
      simp only [Option.isSome_some]
      rw [if_pos trivial]
      rw [List.foldl_cons]
      rw [show applyLine h L = h.Set fn fv from by rw [applyLine, hph]]

theorem HP_len (data : Bytes) (h : Headers) (res : HPRes)
    (hres : Headers.Parse h data = res) : res.n ≤ data.length := by
  rw [HP_unfold] at hres
  split at hres
  · subst hres; simp
  · rename_i idx hf
    have hle := findCRLF_le hf
    split at hres
    · subst hres; simpa using by omega
    · split at hres
      · subst hres; simp
      · rename_i fn fv hph
        split at hres
        · subst hres; simp
        · split at hres
          · subst hres
            have := HP_len (data.drop (idx + 2)) (h.Set fn fv) _ rfl
            simp only [List.length_drop] at this
            omega
          · subst hres
            have := HP_len (data.drop (idx + 2)) (h.Set fn fv) _ rfl
            simp only [List.length_drop] at this ⊢
            omega
termination_by data.length
decreasing_by all_goals simp only [List.length_drop]; omega

theorem HP_err_shape (data : Bytes) (h : Headers) (res : HPRes)
    (hres : Headers.Parse h data = res) (he : res.err.isSome) :
    res.n = 0 ∧ res.done = false := by
  rw [HP_unfold] at hres
  split at hres
  · subst hres; simp at he
  · rename_i idx hf
    have hle := findCRLF_le hf
    split at hres
    · subst hres; simp at he
    · split at hres
      · subst hres; simp
      · rename_i fn fv hph
        split at hres
        · subst hres; simp
        · split at hres
          · rename_i hsome
            exact HP_err_shape (data.drop (idx + 2)) (h.Set fn fv) _ hres he
          · subst hres
            rename_i hnone
            simp at he
            simp [he] at hnone
termination_by data.length
decreasing_by simp only [List.length_drop]; omega

theorem HP_zero (data : Bytes) (h : Headers) (res : HPRes)
    (hres : Headers.Parse h data = res) (hn : res.n = 0) (he : res.err = none) :
    res.hdrs = h ∧ res.done = false := by
  rw [HP_unfold] at hres
  split at hres
  · subst hres; simp
  · rename_i idx hf
    split at hres
    · subst hres; simp at hn
    · split at hres
      · subst hres; simp at he
      · split at hres
        · subst hres; simp at he
        · split at hres
          · rename_i hsome
            subst hres
            simp [he] at hsome
          · subst hres
            simp at hn

theorem HP_notdone (data : Bytes) (h : Headers) (res : HPRes)
    (hres : Headers.Parse h data = res) (he : res.err = none) (hd : res.done = false) :
    findCRLF (data.drop res.n) = none := by
  rw [HP_unfold] at hres
  split at hres
  · rename_i hf
    subst hres
    simpa using hf
  · rename_i idx hf
    have hle := findCRLF_le hf
    split at hres
    · subst hres; simp at hd
    · split at hres
      · subst hres; simp at he
      · rename_i fn fv hph
        split at hres
        · subst hres; simp at he
        · split at hres
          · rename_i hsome
            subst hres
            simp [he] at hsome
          · subst hres
            simp only at he hd ⊢
            have hrec := HP_notdone (data.drop (idx + 2)) (h.Set fn fv) _ rfl he hd
            rw [List.drop_drop] at hrec
            exact hrec
termination_by data.length
decreasing_by simp only [List.length_drop]; omega

theorem HP_ext_done (d e : Bytes) (h : Headers) (res : HPRes)
    (hres : Headers.Parse h d = res) (he : res.err = none) (hd : res.done = true) :
    Headers.Parse h (d ++ e) = res := by
  rw [HP_unfold] at hres
  split at hres
  · subst hres; simp at hd
  · rename_i idx hf
    have hle := findCRLF_le hf
    rw [HP_unfold, findCRLF_append hf]
    dsimp only
    split at hres
    · rename_i h0
      subst hres
      rw [if_pos h0]
    · rename_i h0
      rw [if_neg h0, List.take_append_of_le_length (by omega)]
      split at hres
      · rename_i er hph
        subst hres
        simp at he
      · rename_i fn fv hph
        split at hres
        · subst hres; simp at he
        · rename_i htok
          rw [List.drop_append_of_le_length (by omega)]
          split at hres
          · rename_i hsome
            subst hres
            simp [he] at hsome
          · rename_i hnone
            subst hres
            dsimp only at he hd
            rw [HP_ext_done (d.drop (idx + 2)) e (h.Set fn fv) _ rfl he hd]
            rw [if_neg hnone, if_neg htok]
termination_by d.length
decreasing_by simp only [List.length_drop]; omega

theorem HP_ext_err (d e : Bytes) (h : Headers) (res : HPRes)
    (hres : Headers.Parse h d = res) (he : res.err.isSome) :
    Headers.Parse h (d ++ e) = res := by
  rw [HP_unfold] at hres
  split at hres
  · subst hres; simp at he
  · rename_i idx hf
    have hle := findCRLF_le hf
    rw [HP_unfold, findCRLF_append hf]
    dsimp only
    split at hres
    · subst hres; simp at he
    · rename_i h0
      rw [if_neg h0, List.take_append_of_le_length (by omega)]
      split at hres
      · rename_i er hph
        subst hres
        rfl
      · rename_i fn fv hph
        split at hres
        · rename_i htok
          subst hres
          rw [if_pos htok]
        · rename_i htok
          rw [List.drop_append_of_le_length (by omega)]
          split at hres
          · rename_i hsome
            subst hres
            rw [if_neg htok, HP_ext_err (d.drop (idx + 2)) e (h.Set fn fv) _ rfl hsome,
              if_pos hsome]
          · rename_i hnone
            subst hres
            dsimp only at he
            simp [he] at hnone
termination_by d.length
decreasing_by simp only [List.length_drop]; omega

/-- Composition of Headers.Parse across buffer extension: if a call stopped
without error and without completing the section, a single call on the
extended buffer behaves like the first call followed by a call on the new
remainder, with the consumed counts added unless the second call fails (in
which case its zero count and error are what the combined call reports). -/
theorem HP_compose (d e : Bytes) (h : Headers) (res q : HPRes)
    (hres : Headers.Parse h d = res) (he : res.err = none) (hd : res.done = false)
    (hq : Headers.Parse res.hdrs (d.drop res.n ++ e) = q) :
    Headers.Parse h (d ++ e) =
      if q.err.isSome then q else ⟨q.hdrs, res.n + q.n, q.done, q.err⟩ := by
  rw [HP_unfold] at hres
  split at hres
  · rename_i hf
    subst hres
    dsimp only at hq
    rw [List.drop_zero] at hq
    rw [hq]
    cases q with
    | mk qh qn qd qe => by_cases hqe : qe.isSome <;> simp [hqe]
  · rename_i idx hf
    have hle := findCRLF_le hf
    rw [HP_unfold h (d ++ e), findCRLF_append hf]
    dsimp only
    split at hres
    · subst hres; simp at hd
    · rename_i h0
      rw [if_neg h0, List.take_append_of_le_length (by omega)]
      split at hres
      · rename_i er hph
        subst hres
        simp at he
      · rename_i fn fv hph
        split at hres
        · subst hres; simp at he
        · rename_i htok
          rw [List.drop_append_of_le_length (by omega)]
          split at hres
          · rename_i hsome
            subst hres
            simp [he] at hsome
          · rename_i hnone
            subst hres
            dsimp only at he hd hq ⊢
            have hdd : (d.drop (idx + 2)).drop
                ((Headers.Parse (h.Set fn fv) (d.drop (idx + 2))).n) =
                d.drop (idx + 2 + (Headers.Parse (h.Set fn fv) (d.drop (idx + 2))).n) := by
              rw [List.drop_drop]
            rw [← hdd] at hq
            have hrec := HP_compose (d.drop (idx + 2)) e (h.Set fn fv) _ q rfl he hd hq
            rw [if_neg htok, hrec]
            by_cases hqe : q.err.isSome
            · simp [hqe]
            · simp [hqe, Nat.add_assoc]
termination_by d.length
decreasing_by simp only [List.length_drop]; omega

theorem endsCRLF_suffix (x : Bytes) : endsCRLF (x ++ ['\r', '\n']) := by
  simp [endsCRLF, List.reverse_append]

theorem endsCRLF_append (a b : Bytes) (hb : endsCRLF b) : endsCRLF (a ++ b) := by
  simp only [endsCRLF, decide_eq_true_eq] at hb ⊢
  have hlen : 2 ≤ b.reverse.length := by
    by_contra hc
    rw [List.take_of_length_le (by omega)] at hb
    have h2 := congrArg List.length hb
    simp only [List.length_reverse, List.length_cons, List.length_nil] at h2
    simp only [List.length_reverse] at hc
    omega
  rw [List.reverse_append, List.take_append_of_le_length hlen, hb]

theorem HP_crlf_end (data : Bytes) (h : Headers) (res : HPRes)
    (hres : Headers.Parse h data = res) (he : res.err = none) :
    res.n = 0 ∨ endsCRLF (data.take res.n) := by
  rw [HP_unfold] at hres
  split at hres
  · subst hres; left; rfl
  · rename_i idx hf
    have hle := findCRLF_le hf
    split at hres
    · rename_i h0
      subst hres
      right
      subst h0
      rw [show data.take 2 = data.take 0 ++ ['\r', '\n'] from findCRLF_take hf]
      exact endsCRLF_suffix _
    · rename_i h0
      split at hres
      · subst hres; simp at he
      · rename_i fn fv hph
        split at hres
        · subst hres; simp at he
        · rename_i htok
          split at hres
          · rename_i hsome
            subst hres
            simp [he] at hsome
          · rename_i hnone
            subst hres
            dsimp only at he ⊢
            right
            rcases HP_crlf_end (data.drop (idx + 2)) (h.Set fn fv) _ rfl he with hz | hend
            · rw [hz, Nat.add_zero, findCRLF_take hf]
              exact endsCRLF_suffix _
            · rw [List.take_add]
              exact endsCRLF_append _ _ hend
termination_by data.length
decreasing_by simp only [List.length_drop]; omega

/-! Facts about parseRequestLine. -/

theorem PRL_ok {b : Bytes} {rl : RequestLine} {m : Nat}
    (h : parseRequestLine b = .ok rl m) :
    ∃ idx, findCRLF b = some idx ∧ m = idx + 2 ∧ m ≤ b.length := by
  rw [parseRequestLine] at h
  split at h
  · exact absurd h (by simp)
  · rename_i idx hf
    refine ⟨idx, hf, ?_⟩
    have := findCRLF_le hf
    dsimp only at h
    split at h
    · split at h
      · split at h
        · simp only [RLRes.ok.injEq] at h
          omega
        · exact absurd h (by simp)
      · exact absurd h (by simp)
    · exact absurd h (by simp)

theorem PRL_version {b : Bytes} {rl : RequestLine} {m : Nat}
    (h : parseRequestLine b = .ok rl m) : rl.HttpVersion = "1.1" := by
  rw [parseRequestLine] at h
  split at h
  · exact absurd h (by simp)
  · dsimp only at h
    split at h
    · split at h
      · rename_i hv
        split at h
        · simp only [RLRes.ok.injEq] at h
          obtain ⟨hrl, -⟩ := h
          subst hrl
          rename_i hh
          simp only [String.mk]
          have := hh.2
          subst this
          rfl
        · exact absurd h (by simp)
      · exact absurd h (by simp)
    · exact absurd h (by simp)

theorem PRL_ext {b e : Bytes} {rl : RequestLine} {m : Nat}
    (h : parseRequestLine b = .ok rl m) : parseRequestLine (b ++ e) = .ok rl m := by
  obtain ⟨idx, hf, hm, hle⟩ := PRL_ok h
  rw [parseRequestLine] at h ⊢
  rw [findCRLF_append hf]
  rw [hf] at h
  dsimp only at h ⊢
  rw [List.take_append_of_le_length (by have := findCRLF_le hf; omega)]
  exact h

theorem PRL_ext_err {b e : Bytes} {er : ReqError}
    (h : parseRequestLine b = .err er) : parseRequestLine (b ++ e) = .err er := by
  rw [parseRequestLine] at h
  split at h
  · exact absurd h (by simp)
  · rename_i idx hf
    rw [parseRequestLine, findCRLF_append hf]
    dsimp only
    rw [List.take_append_of_le_length (by have := findCRLF_le hf; omega)]
    exact h

theorem PRL_needMore {b : Bytes} (hf : findCRLF b = none) :
    parseRequestLine b = .needMore := by
  rw [parseRequestLine, hf]


theorem rank_le4 (s : ParseState) : rank s ≤ 4 := by
  cases s <;> simp [rank]

theorem parseStep_measure {r : Request} {rem : Bytes} {r₁ : Request} {n : Nat}
    (hne : rem ≠ []) (hs : parseStep r rem = .more r₁ n) :
    n ≤ rem.length ∧
      5 * (rem.drop n).length + rank r₁.state < 5 * rem.length + rank r.state := by
  have hlc : 0 < rem.length := List.length_pos.mpr hne
  rw [parseStep] at hs
  split at hs
  · exact absurd hs (by simp)
  · rename_i hsi
    split at hs
    · exact absurd hs (by simp)
    · exact absurd hs (by simp)
    · rename_i rl m hrl
      simp only [StepRes.more.injEq] at hs
      obtain ⟨hr₁, hn⟩ := hs
      obtain ⟨idx, hf, hm, hle⟩ := PRL_ok hrl
      subst hr₁ hn
      simp only [List.length_drop]
      rw [hsi]
      refine ⟨hle, lt_of_le_of_lt (Nat.add_le_add_left (rank_le4 _) _) ?_⟩
      simp only [rank]
      omega
  · rename_i hsh
    dsimp only at hs
    split at hs
    · exact absurd hs (by simp)
    · split at hs
      · exact absurd hs (by simp)
      · rename_i hn0
        simp only [StepRes.more.injEq] at hs
        obtain ⟨hr₁, hn⟩ := hs
        have hpl := HP_len rem r.Headers _ rfl
        subst hr₁ hn
        simp only [List.length_drop]
        rw [hsh]
        refine ⟨hpl, lt_of_le_of_lt (Nat.add_le_add_left (rank_le4 _) _) ?_⟩
        simp only [rank]
        omega
  · rename_i hsb
    dsimp only at hs
    split at hs
    · exact absurd hs (by simp)
    · split at hs
      · exact absurd hs (by simp)
      · rename_i hlen hneg
        simp only [StepRes.more.injEq] at hs
        obtain ⟨hr₁, hn⟩ := hs
        subst hr₁ hn
        simp only [List.length_drop]
        rw [hsb]
        have hmr := min_le_right
          (getInt r.Headers "content-length" 0 - (r.Body.length : Int)) ((rem.length : Int))
        constructor
        · omega
        · by_cases hz : (min (getInt r.Headers "content-length" 0 - (r.Body.length : Int))
              ((rem.length : Int))).toNat = 0
          · split
            · simp only [rank]
              omega
            · rename_i hcond
              exfalso
              apply hcond
              rw [hz]
              have hml := min_le_left
                (getInt r.Headers "content-length" 0 - (r.Body.length : Int))
                ((rem.length : Int))
              have hcl : getInt r.Headers "content-length" 0 = (r.Body.length : Int) := by
                rcases min_cases
                  (getInt r.Headers "content-length" 0 - (r.Body.length : Int))
                  ((rem.length : Int)) with ⟨h1, h2⟩ | ⟨h1, h2⟩ <;> omega
              simp [hcl]
          · refine lt_of_le_of_lt (Nat.add_le_add_left (rank_le4 _) _) ?_
            simp only [rank]
            omega
  · exact absurd hs (by simp)

theorem parseLoop_ne_noFuel {fuel : Nat} : ∀ {r : Request} {rem : Bytes} {read : Nat},
    5 * rem.length + rank r.state < fuel → parseLoop fuel r rem read ≠ .noFuel := by
  induction fuel with
  | zero => intro r rem read h; omega
  | succ fuel ih =>
    intro r rem read h
    rw [parseLoop]
    split
    · simp
    · rename_i hne
      split
      · simp
      · simp
      · simp
      · rename_i r₁ n hs
        apply ih
        have := parseStep_measure hne hs
        omega

theorem parseLoop_irrel {f₁ : Nat} : ∀ {f₂ : Nat} {r : Request} {rem : Bytes} {read : Nat},
    5 * rem.length + rank r.state < f₁ → 5 * rem.length + rank r.state < f₂ →
    parseLoop f₁ r rem read = parseLoop f₂ r rem read := by
  induction f₁ with
  | zero => intro f₂ r rem read h1 h2; omega
  | succ f₁ ih =>
    intro f₂ r rem read h1 h2
    cases f₂ with
    | zero => omega
    | succ f₂ =>
      rw [parseLoop, parseLoop]
      split
      · rfl
      · rename_i hne
        split
        · rfl
        · rfl
        · rfl
        · rename_i r₁ n hs
          have hm := parseStep_measure hne hs
          exact ih (by omega) (by omega)

theorem parseAcc_ne_noFuel (r : Request) (rem : Bytes) (read : Nat) :
    parseAcc r rem read ≠ .noFuel := by
  apply parseLoop_ne_noFuel
  have := rank_le4 r.state
  omega

/-- One-step unfolding equation for Request.parse continued from a running
read count, with the fuel eliminated. -/
theorem parseAcc_unfold (r : Request) (rem : Bytes) (read : Nat) :
    parseAcc r rem read =
      if rem = [] then .ok r read none
      else
        match parseStep r rem with
        | .stopR r₁ => .ok r₁ read none
        | .fail r₁ e => .ok r₁ 0 e
        | .panicked => .panicRes
        | .more r₁ n => parseAcc r₁ (rem.drop n) (read + n) := by
  show parseLoop (5 * rem.length + 4 + 1) r rem read = _
  rw [parseLoop]
  split
  · rfl
  · rename_i hne
    split
    · rfl
    · rfl
    · rfl
    · rename_i r₁ n hs
      have hm := parseStep_measure hne hs
      have h4 := rank_le4 r₁.state
      have h4r := rank_le4 r.state
      exact parseLoop_irrel (by omega) (by simp only [List.length_drop]; omega)

theorem strLen_mk (l : List Char) : (String.mk l).length = l.length := rfl

/-- A loop iteration that changed the parser state consumes the same bytes
and produces the same request when the buffer is extended on the right. -/
theorem step_more_ext {r : Request} {rem E : Bytes} {r₁ : Request} {n : Nat}
    (hs : parseStep r rem = .more r₁ n) (hst : r₁.state ≠ r.state) :
    parseStep r (rem ++ E) = .more r₁ n := by
  cases hstate : r.state with
  | StateError => rw [parseStep, hstate] at hs; exact absurd hs (by simp)
  | StateDone => rw [parseStep, hstate] at hs; exact absurd hs (by simp)
  | StateInit =>
    rw [parseStep, hstate] at hs
    dsimp only at hs
    split at hs
    · exact absurd hs (by simp)
    · exact absurd hs (by simp)
    · rename_i rl m hrl
      rw [parseStep, hstate]
      dsimp only
      rw [PRL_ext hrl]
      exact hs
  | StateHeader =>
    rw [parseStep, hstate] at hs
    dsimp only at hs
    have hcopy := hs
    split at hcopy
    · exact absurd hcopy (by simp)
    · rename_i herr
      split at hcopy
      · exact absurd hcopy (by simp)
      · rename_i hn0
        simp only [StepRes.more.injEq] at hcopy
        obtain ⟨hr₁, hn⟩ := hcopy
        have hdone : (Headers.Parse r.Headers rem).done = true := by
          by_contra hnd
          apply hst
          rw [← hr₁]
          dsimp only
          rw [if_neg hnd, hstate]
        rw [parseStep, hstate]
        dsimp only
        rw [HP_ext_done rem E r.Headers _ rfl herr hdone]
        exact hs
  | StateBody =>
    rw [parseStep, hstate] at hs
    dsimp only at hs
    have hcopy := hs
    split at hcopy
    · exact absurd hcopy (by simp)
    · rename_i hlen0
      split at hcopy
      · exact absurd hcopy (by simp)
      · rename_i hneg
        simp only [StepRes.more.injEq] at hcopy
        obtain ⟨hr₁, hn⟩ := hcopy
        have hcond : ((r.Body ++ String.mk (rem.take
            (min (getInt r.Headers "content-length" 0 - (r.Body.length : Int))
              ((rem.length : Int))).toNat)).length : Int)
            = getInt r.Headers "content-length" 0 := by
          by_contra hc
          apply hst
          rw [← hr₁]
          dsimp only
          rw [if_neg hc, hstate]
        rw [String.length_append] at hcond
        have htl : ((rem.take (min (getInt r.Headers "content-length" 0 -
            (r.Body.length : Int)) ((rem.length : Int))).toNat).length : Int) =
            min (getInt r.Headers "content-length" 0 - (r.Body.length : Int))
              ((rem.length : Int)) := by
          show (((rem.take _).length : Nat) : Int) = _
          rw [List.length_take]
          omega
        have hRle : min (getInt r.Headers "content-length" 0 - (r.Body.length : Int))
            ((rem.length : Int)) ≤ (rem.length : Int) := min_le_right _ _
        have hRneed : min (getInt r.Headers "content-length" 0 - (r.Body.length : Int))
            ((rem.length : Int)) =
            getInt r.Headers "content-length" 0 - (r.Body.length : Int) := by
          rw [strLen_mk, Nat.cast_add] at hcond
          have hcond2 : (r.Body.length : Int) +
              ((rem.take (min (getInt r.Headers "content-length" 0 - (r.Body.length : Int))
                ((rem.length : Int))).toNat).length : Int) =
              getInt r.Headers "content-length" 0 := hcond
          omega
        have hmin2 : min (getInt r.Headers "content-length" 0 - (r.Body.length : Int))
            (((rem ++ E).length : Int)) =
            min (getInt r.Headers "content-length" 0 - (r.Body.length : Int))
              ((rem.length : Int)) := by
          simp only [List.length_append]
          omega
        rw [parseStep, hstate]
        dsimp only
        rw [hmin2, List.take_append_of_le_length (by omega)]
        rw [if_neg hlen0, if_neg hneg] at hs ⊢
        exact hs

/-- The only immediate return with a nil error value is the request-line
error branch, which first moves the request into the error state. -/
theorem step_fail_none {r : Request} {rem : Bytes} {r₁ : Request}
    (hs : parseStep r rem = .fail r₁ none) : r₁.state = .StateError := by
  cases hstate : r.state with
  | StateError =>
    rw [parseStep, hstate] at hs
    simp only [StepRes.fail.injEq] at hs
    exact absurd hs.2 (by simp)
  | StateDone => rw [parseStep, hstate] at hs; exact absurd hs (by simp)
  | StateInit =>
    rw [parseStep, hstate] at hs
    dsimp only at hs
    split at hs
    · simp only [StepRes.fail.injEq] at hs
      rw [← hs.1]
    · exact absurd hs (by simp)
    · exact absurd hs (by simp)
  | StateHeader =>
    rw [parseStep, hstate] at hs
    dsimp only at hs
    split at hs
    · simp only [StepRes.fail.injEq] at hs
      exact absurd hs.2 (by simp)
    · split at hs
      · exact absurd hs (by simp)
      · exact absurd hs (by simp)
  | StateBody =>
    rw [parseStep, hstate] at hs
    dsimp only at hs
    split at hs
    · exact absurd hs (by simp)
    · split at hs
      · exact absurd hs (by simp)
      · exact absurd hs (by simp)

/-- An immediate return (count 0 plus error value) is reproduced exactly
when the buffer is extended on the right. -/
theorem step_fail_ext {r : Request} {rem E : Bytes} {r₁ : Request} {e : Option ReqError}
    (hs : parseStep r rem = .fail r₁ e) : parseStep r (rem ++ E) = .fail r₁ e := by
  cases hstate : r.state with
  | StateError =>
    rw [parseStep, hstate] at hs
    rw [parseStep, hstate]
    exact hs
  | StateDone => rw [parseStep, hstate] at hs; exact absurd hs (by simp)
  | StateInit =>
    rw [parseStep, hstate] at hs
    dsimp only at hs
    split at hs
    · rename_i er hrl
      rw [parseStep, hstate]
      dsimp only
      rw [PRL_ext_err hrl]
      exact hs
    · exact absurd hs (by simp)
    · exact absurd hs (by simp)
  | StateHeader =>
    rw [parseStep, hstate] at hs
    dsimp only at hs
    have hcopy := hs
    split at hcopy
    · rename_i er herr
      rw [parseStep, hstate]
      dsimp only
      rw [HP_ext_err rem E r.Headers _ rfl (by rw [herr]; rfl)]
      exact hs
    · split at hcopy
      · exact absurd hcopy (by simp)
      · exact absurd hcopy (by simp)
  | StateBody =>
    rw [parseStep, hstate] at hs
    dsimp only at hs
    split at hs
    · exact absurd hs (by simp)
    · split at hs
      · exact absurd hs (by simp)
      · exact absurd hs (by simp)

/-- A panic (chunked body or negative slice bound) is reproduced when the
buffer is extended on the right. -/
theorem step_panic_ext {r : Request} {rem E : Bytes}
    (hs : parseStep r rem = .panicked) : parseStep r (rem ++ E) = .panicked := by
  cases hstate : r.state with
  | StateError => rw [parseStep, hstate] at hs; exact absurd hs (by simp)
  | StateDone => rw [parseStep, hstate] at hs; exact absurd hs (by simp)
  | StateInit =>
    rw [parseStep, hstate] at hs
    dsimp only at hs
    split at hs
    · exact absurd hs (by simp)
    · exact absurd hs (by simp)
    · exact absurd hs (by simp)
  | StateHeader =>
    rw [parseStep, hstate] at hs
    dsimp only at hs
    split at hs
    · exact absurd hs (by simp)
    · split at hs
      · exact absurd hs (by simp)
      · exact absurd hs (by simp)
  | StateBody =>
    rw [parseStep, hstate] at hs
    dsimp only at hs
    rw [parseStep, hstate]
    dsimp only
    split at hs
    · rename_i hlen0
      rw [if_pos hlen0]
    · rename_i hlen0
      rw [if_neg hlen0]
      split at hs
      · rename_i hneg
        have hneg2 : min (getInt r.Headers "content-length" 0 - (r.Body.length : Int))
            (((rem ++ E).length : Int)) < 0 := by
          simp only [List.length_append]
          omega
        rw [if_pos hneg2]
      · exact absurd hs (by simp)

theorem str_append_mk_nil (s : String) : s ++ String.mk [] = s := by
  cases s with
  | mk d =>
    show String.mk (d ++ []) = String.mk d
    rw [List.append_nil]

/-- After a header-section iteration that did not complete the section, the
unconsumed remainder alone makes no further progress: parsing it from the
resulting request returns it unchanged with zero consumed. -/
theorem step_header_cont {r : Request} {rem : Bytes} {r₁ : Request} {n : Nat}
    (hstate : r.state = .StateHeader) (hs : parseStep r rem = .more r₁ n)
    (hs1 : r₁.state = .StateHeader) :
    ∀ read', parseAcc r₁ (rem.drop n) read' = .ok r₁ read' none := by
  intro read'
  rw [parseStep, hstate] at hs
  dsimp only at hs
  split at hs
  · exact absurd hs (by simp)
  · rename_i herr
    split at hs
    · exact absurd hs (by simp)
    · rename_i hn0
      simp only [StepRes.more.injEq] at hs
      obtain ⟨hr₁, hn⟩ := hs
      have hdone : (Headers.Parse r.Headers rem).done = false := by
        by_contra hnd
        simp only [Bool.not_eq_false] at hnd
        rw [← hr₁] at hs1
        dsimp only at hs1
        rw [if_pos hnd] at hs1
        split at hs1 <;> simp at hs1
      have hfcr := HP_notdone rem r.Headers _ rfl herr hdone
      rw [hn] at hfcr
      have hhdrs : r₁.Headers = (Headers.Parse r.Headers rem).hdrs := by
        rw [← hr₁]
      rw [parseAcc_unfold]
      split
      · rfl
      · rename_i hne2
        rw [parseStep, hs1]
        dsimp only
        rw [show Headers.Parse r₁.Headers (rem.drop n) = ⟨r₁.Headers, 0, false, none⟩ by
          rw [HP_unfold, hfcr]]
        show PRes.ok ({ RequestLine := r₁.RequestLine, Headers := r₁.Headers,
                        Body := r₁.Body, state := ParseState.StateHeader } : Request)
          read' none = PRes.ok r₁ read' none
        rw [show ({ RequestLine := r₁.RequestLine, Headers := r₁.Headers,
                    Body := r₁.Body, state := ParseState.StateHeader } : Request) = r₁
          by rw [← hs1]]

/-- A header-section iteration that did not complete the section commutes
with extending the buffer: parsing the extended buffer equals taking that
iteration first and then parsing the remainder plus extension. -/
theorem step_header_main {r : Request} {rem : Bytes} {r₁ : Request} {n : Nat}
    (hne : rem ≠ []) (hstate : r.state = .StateHeader) (hs : parseStep r rem = .more r₁ n)
    (hs1 : r₁.state = .StateHeader) (read : Nat) (E : Bytes) :
    parseAcc r (rem ++ E) read = parseAcc r₁ (rem.drop n ++ E) (read + n) := by
  rw [parseStep, hstate] at hs
  dsimp only at hs
  split at hs
  · exact absurd hs (by simp)
  · rename_i herr
    split at hs
    · exact absurd hs (by simp)
    · rename_i hn0
      simp only [StepRes.more.injEq] at hs
      obtain ⟨hr₁, hn⟩ := hs
      subst hn
      have hdone : (Headers.Parse r.Headers rem).done = false := by
        by_contra hnd
        simp only [Bool.not_eq_false] at hnd
        rw [← hr₁] at hs1
        dsimp only at hs1
        rw [if_pos hnd] at hs1
        split at hs1 <;> simp at hs1
      have hhdrs : r₁.Headers = (Headers.Parse r.Headers rem).hdrs := by rw [← hr₁]
      have hRL : r₁.RequestLine = r.RequestLine := by rw [← hr₁]
      have hBody : r₁.Body = r.Body := by rw [← hr₁]
      have hlen := HP_len rem r.Headers _ rfl
      have hcomp := HP_compose rem E r.Headers _
        (Headers.Parse (Headers.Parse r.Headers rem).hdrs
          (rem.drop (Headers.Parse r.Headers rem).n ++ E)) rfl herr hdone rfl
      have hne2 : rem ++ E ≠ [] := fun h0 => hne (List.append_eq_nil.mp h0).1
      rw [parseAcc_unfold, if_neg hne2, parseStep, hstate]
      dsimp only
      rw [hcomp]
      by_cases hqe : (Headers.Parse (Headers.Parse r.Headers rem).hdrs
          (rem.drop (Headers.Parse r.Headers rem).n ++ E)).err.isSome
      · rw [if_pos hqe]
        obtain ⟨e, he⟩ := Option.isSome_iff_exists.mp hqe
        have hbne : rem.drop (Headers.Parse r.Headers rem).n ++ E ≠ [] := by
          intro h0
          rw [h0] at hqe
          rw [show Headers.Parse (Headers.Parse r.Headers rem).hdrs [] =
            ⟨(Headers.Parse r.Headers rem).hdrs, 0, false, none⟩ by
              rw [HP_unfold]; rfl] at hqe
          simp at hqe
        rw [parseAcc_unfold, if_neg hbne, parseStep, hs1]
        dsimp only
        rw [hhdrs, he]
        dsimp only
        rw [hRL, hBody]
      · rw [if_neg hqe]
        have hqen : ((r.Headers.Parse rem).hdrs.Parse
            (List.drop (r.Headers.Parse rem).n rem ++ E)).err = none :=
          Option.not_isSome_iff_eq_none.mp (by simpa using hqe)
        rw [hqen]
        dsimp only
        rw [if_neg (by omega)]
        dsimp only
        by_cases hqn : ((r.Headers.Parse rem).hdrs.Parse
            (List.drop (r.Headers.Parse rem).n rem ++ E)).n = 0
        · obtain ⟨hqh, hqd⟩ := HP_zero _ _ _ rfl hqn hqen
          rw [hqn, hqd, hqh]
          simp only [Nat.add_zero, Bool.false_eq_true, if_false]
          rw [List.drop_append_of_le_length hlen]
          rw [show ({ RequestLine := r.RequestLine, Headers := (r.Headers.Parse rem).hdrs,
                      Body := r.Body, state := ParseState.StateHeader } : Request) = r₁
            by rw [← hr₁, hdone]; rfl]
        · have hbne : List.drop (r.Headers.Parse rem).n rem ++ E ≠ [] := by
            intro h0
            apply hqn
            rw [h0, show Headers.Parse (r.Headers.Parse rem).hdrs [] =
              ⟨(r.Headers.Parse rem).hdrs, 0, false, none⟩ by rw [HP_unfold]; rfl]
          symm
          rw [parseAcc_unfold, if_neg hbne, parseStep, hs1]
          dsimp only
          rw [hhdrs, hqen]
          dsimp only
          rw [if_neg hqn]
          dsimp only
          rw [hRL, hBody, ← List.drop_append_of_le_length hlen, List.drop_drop,
            Nat.add_assoc]

/-- A body iteration that exhausts the buffer without completing the body
commutes with extending the buffer. -/
theorem step_body_body {r : Request} {rem : Bytes} {r₁ : Request} {n : Nat}
    (hne : rem ≠ []) (hstate : r.state = .StateBody) (hs : parseStep r rem = .more r₁ n)
    (hs1 : r₁.state = .StateBody) :
    n = rem.length ∧
    (∀ read E, parseAcc r (rem ++ E) read = parseAcc r₁ (rem.drop n ++ E) (read + n)) := by
  have hlc : 0 < rem.length := List.length_pos.mpr hne
  rw [parseStep, hstate] at hs
  dsimp only at hs
  split at hs
  · exact absurd hs (by simp)
  · rename_i hlen0
    split at hs
    · exact absurd hs (by simp)
    · rename_i hneg
      simp only [StepRes.more.injEq] at hs
      obtain ⟨hr₁, hn⟩ := hs
      have hcond : ¬ (((r.Body ++ String.mk (rem.take
          (min (getInt r.Headers "content-length" 0 - (r.Body.length : Int))
            ((rem.length : Int))).toNat)).length : Int) =
          getInt r.Headers "content-length" 0) := by
        intro hc
        rw [← hr₁] at hs1
        dsimp only at hs1
        rw [if_pos hc] at hs1
        simp at hs1
      have hblen : ((r.Body ++ String.mk (rem.take
          (min (getInt r.Headers "content-length" 0 - (r.Body.length : Int))
            ((rem.length : Int))).toNat)).length : Int) =
          (r.Body.length : Int) + ((rem.take
          (min (getInt r.Headers "content-length" 0 - (r.Body.length : Int))
            ((rem.length : Int))).toNat).length : Int) := by
        rw [String.length_append, Nat.cast_add]
        rfl
      have htklen : ((rem.take
          (min (getInt r.Headers "content-length" 0 - (r.Body.length : Int))
            ((rem.length : Int))).toNat).length : Int) =
          min (getInt r.Headers "content-length" 0 - (r.Body.length : Int))
            ((rem.length : Int)) := by
        show (((rem.take _).length : Nat) : Int) = _
        rw [List.length_take]
        omega
      rw [hblen, htklen] at hcond
      have hgt : (rem.length : Int) <
          getInt r.Headers "content-length" 0 - (r.Body.length : Int) := by
        rcases min_cases (getInt r.Headers "content-length" 0 - (r.Body.length : Int))
          ((rem.length : Int)) with ⟨h1, h2⟩ | ⟨h1, h2⟩ <;> omega
      have hR : min (getInt r.Headers "content-length" 0 - (r.Body.length : Int))
          ((rem.length : Int)) = (rem.length : Int) := by omega
      have hnlen : n = rem.length := by omega
      refine ⟨hnlen, ?_⟩
      intro read E
      have hne2 : rem ++ E ≠ [] := fun h0 => hne (List.append_eq_nil.mp h0).1
      rw [parseAcc_unfold, if_neg hne2, parseStep, hstate]
      dsimp only
      rw [if_neg hlen0]
      have hgt0 : 0 ≤ min (getInt r.Headers "content-length" 0 - (r.Body.length : Int)
          - (rem.length : Int)) ((E.length : Int)) := by
        have h0E : (0 : Int) ≤ (E.length : Int) := by positivity
        omega
      have hR2 : min (getInt r.Headers "content-length" 0 - (r.Body.length : Int))
          (((rem ++ E).length : Int)) = (rem.length : Int) +
          min (getInt r.Headers "content-length" 0 - (r.Body.length : Int)
            - (rem.length : Int)) ((E.length : Int)) := by
        simp only [List.length_append]
        push_cast
        omega
      rw [hR2, if_neg (by omega)]
      have htn2 : ((rem.length : Int) + min (getInt r.Headers "content-length" 0 -
          (r.Body.length : Int) - (rem.length : Int)) ((E.length : Int))).toNat =
          rem.length + (min (getInt r.Headers "content-length" 0 -
          (r.Body.length : Int) - (rem.length : Int)) ((E.length : Int))).toNat := by omega
      rw [htn2, List.take_append]
      dsimp only
      rw [List.drop_append]
      rw [hnlen, List.drop_length, List.nil_append, ← hr₁, hR,
        show ((rem.length : Int)).toNat = rem.length from by omega, List.take_length]
      have hbl2 : (((r.Body ++ String.mk rem).length : Nat) : Int) =
          (r.Body.length : Int) + (rem.length : Int) := by
        rw [String.length_append, Nat.cast_add]
        rfl
      have hcondE : ¬ ((((r.Body ++ String.mk rem).length : Nat) : Int) =
          getInt r.Headers "content-length" 0) := by
        rw [hbl2]
        omega
      rw [if_neg hcondE]
      by_cases hE : E = []
      · subst hE
        have hK0 : (min (getInt r.Headers "content-length" 0 -
            (r.Body.length : Int) - (rem.length : Int))
            ((([] : Bytes).length : Int))).toNat = 0 := by
          simp only [List.length_nil, Nat.cast_zero]
          omega
        rw [hK0]
        simp only [List.take_nil, List.append_nil, List.drop_nil, Nat.add_zero]
        rw [if_neg hcondE]
      · symm
        rw [parseAcc_unfold, if_neg hE, parseStep]
        dsimp only
        rw [if_neg hlen0]
        have hK3 : min (getInt r.Headers "content-length" 0 -
            (((r.Body ++ String.mk rem).length : Nat) : Int)) ((E.length : Int)) =
            min (getInt r.Headers "content-length" 0 - (r.Body.length : Int)
              - (rem.length : Int)) ((E.length : Int)) := by
          rw [hbl2]
          ring_nf
        rw [hK3, if_neg (by omega)]
        dsimp only
        have hstr : (r.Body ++ String.mk rem) ++ String.mk (E.take
            (min (getInt r.Headers "content-length" 0 - (r.Body.length : Int)
              - (rem.length : Int)) ((E.length : Int))).toNat) =
            r.Body ++ String.mk (rem ++ E.take
            (min (getInt r.Headers "content-length" 0 - (r.Body.length : Int)
              - (rem.length : Int)) ((E.length : Int))).toNat) := by
          rw [String.append_assoc]
          rfl
        rw [hstr, Nat.add_assoc]



theorem step_stopR_eq {r : Request} {rem : Bytes} {r₁ : Request}
    (hs : parseStep r rem = .stopR r₁) : r₁ = r := by
  cases hstate : r.state with
  | StateError => rw [parseStep, hstate] at hs; exact absurd hs (by simp)
  | StateDone =>
    rw [parseStep, hstate] at hs
    simp only [StepRes.stopR.injEq] at hs
    exact hs.symm
  | StateInit =>
    rw [parseStep, hstate] at hs
    dsimp only at hs
    split at hs
    · exact absurd hs (by simp)
    · simp only [StepRes.stopR.injEq] at hs
      exact hs.symm
    · exact absurd hs (by simp)
  | StateHeader =>
    rw [parseStep, hstate] at hs
    dsimp only at hs
    split at hs
    · exact absurd hs (by simp)
    · rename_i herr
      split at hs
      · rename_i hz
        simp only [StepRes.stopR.injEq] at hs
        obtain ⟨hh, -⟩ := HP_zero rem r.Headers _ rfl hz herr
        rw [← hs, hh, ← hstate]
      · exact absurd hs (by simp)
  | StateBody =>
    rw [parseStep, hstate] at hs
    dsimp only at hs
    split at hs
    · exact absurd hs (by simp)
    · split at hs
      · exact absurd hs (by simp)
      · exact absurd hs (by simp)

theorem step_more_state_ne_error {r : Request} {rem : Bytes} {r₁ : Request} {n : Nat}
    (hs : parseStep r rem = .more r₁ n) : r₁.state ≠ .StateError := by
  cases hstate : r.state with
  | StateError => rw [parseStep, hstate] at hs; exact absurd hs (by simp)
  | StateDone => rw [parseStep, hstate] at hs; exact absurd hs (by simp)
  | StateInit =>
    rw [parseStep, hstate] at hs
    dsimp only at hs
    split at hs
    · exact absurd hs (by simp)
    · exact absurd hs (by simp)
    · simp only [StepRes.more.injEq] at hs
      rw [← hs.1]
      simp
  | StateHeader =>
    rw [parseStep, hstate] at hs
    dsimp only at hs
    split at hs
    · exact absurd hs (by simp)
    · split at hs
      · exact absurd hs (by simp)
      · simp only [StepRes.more.injEq] at hs
        rw [← hs.1]
        dsimp only
        split
        · split <;> simp
        · simp
  | StateBody =>
    rw [parseStep, hstate] at hs
    dsimp only at hs
    split at hs
    · exact absurd hs (by simp)
    · split at hs
      · exact absurd hs (by simp)
      · simp only [StepRes.more.injEq] at hs
        rw [← hs.1]
        dsimp only
        split <;> simp

/-- Master composition theorem for Request.parse under buffer extension.
For a call that ends in an error the extended call is identical; for a call
that ends without error and outside the error state, the extended call
continues exactly from the leftover buffer plus extension. -/
theorem PA_append (m : Nat) (r : Request) (rem : Bytes) (read : Nat) (E : Bytes)
    (hm : 5 * rem.length + rank r.state = m) :
    (∀ r₁ n e, parseAcc r rem read = .ok r₁ n (some e) →
       parseAcc r (rem ++ E) read = .ok r₁ n (some e)) ∧
    (∀ r₁ n, r.state ≠ .StateError → parseAcc r rem read = .ok r₁ n none →
       r₁.state = .StateError → parseAcc r (rem ++ E) read = .ok r₁ n none) ∧
    (∀ r₁ n, parseAcc r rem read = .ok r₁ n none → r₁.state ≠ .StateError →
       ∃ c, n = read + c ∧ c ≤ rem.length ∧
         parseAcc r (rem ++ E) read = parseAcc r₁ (rem.drop c ++ E) (read + c)) ∧
    (parseAcc r rem read = .panicRes → parseAcc r (rem ++ E) read = .panicRes) := by
  by_cases hrem : rem = []
  · subst hrem
    have hud : parseAcc r [] read = .ok r read none := by rw [parseAcc_unfold]; rfl
    refine ⟨?_, ?_, ?_, ?_⟩
    · intro r₁ n e hp
      rw [hud] at hp
      exact absurd hp (by simp)
    · intro r₁ n hrs hp herr
      rw [hud] at hp
      simp only [PRes.ok.injEq] at hp
      rw [← hp.1] at herr
      exact absurd herr hrs
    · intro r₁ n hp hst
      rw [hud] at hp
      simp only [PRes.ok.injEq] at hp
      obtain ⟨h1, h2, -⟩ := hp
      refine ⟨0, by omega, by omega, ?_⟩
      rw [← h1, Nat.add_zero]
      rfl
    · intro hp
      rw [hud] at hp
      exact absurd hp (by simp)
  · have hud := parseAcc_unfold r rem read
    rw [if_neg hrem] at hud
    have hne2 : rem ++ E ≠ [] := fun h0 => hrem (List.append_eq_nil.mp h0).1
    have hudE := parseAcc_unfold r (rem ++ E) read
    rw [if_neg hne2] at hudE
    cases hstep : parseStep r rem with
    | stopR r₁' =>
      rw [hstep] at hud
      dsimp only at hud
      have heq := step_stopR_eq hstep
      subst heq
      refine ⟨?_, ?_, ?_, ?_⟩
      · intro r₁ n e hp
        rw [hud] at hp
        exact absurd hp (by simp)
      · intro r₁ n hrs hp herr
        rw [hud] at hp
        simp only [PRes.ok.injEq] at hp
        rw [← hp.1] at herr
        exact absurd herr hrs
      · intro r₁ n hp hst
        rw [hud] at hp
        simp only [PRes.ok.injEq] at hp
        obtain ⟨h1, h2, -⟩ := hp
        refine ⟨0, by omega, by omega, ?_⟩
        rw [← h1, Nat.add_zero, List.drop_zero]
      · intro hp
        rw [hud] at hp
        exact absurd hp (by simp)
    | fail r₁' e' =>
      rw [hstep] at hud
      dsimp only at hud
      have hstepE := step_fail_ext (E := E) hstep
      rw [hstepE] at hudE
      dsimp only at hudE
      refine ⟨?_, ?_, ?_, ?_⟩
      · intro r₁ n e hp
        rw [hud] at hp
        rw [hudE, ← hp]
      · intro r₁ n hrs hp herr
        rw [hud] at hp
        rw [hudE, ← hp]
      · intro r₁ n hp hst
        rw [hud] at hp
        simp only [PRes.ok.injEq] at hp
        obtain ⟨h1, -, h3⟩ := hp
        exfalso
        apply hst
        rw [← h1]
        exact step_fail_none (h3 ▸ hstep)
      · intro hp
        rw [hud] at hp
        exact absurd hp (by simp)
    | panicked =>
      rw [hstep] at hud
      dsimp only at hud
      have hstepE := step_panic_ext (E := E) hstep
      rw [hstepE] at hudE
      dsimp only at hudE
      refine ⟨?_, ?_, ?_, ?_⟩
      · intro r₁ n e hp
        rw [hud] at hp
        exact absurd hp (by simp)
      · intro r₁ n hrs hp herr
        rw [hud] at hp
        exact absurd hp (by simp)
      · intro r₁ n hp hst
        rw [hud] at hp
        exact absurd hp (by simp)
      · intro hp
        exact hudE
    | more r₁' n' =>
      rw [hstep] at hud
      dsimp only at hud
      have hmeas := parseStep_measure hrem hstep
      have hstne := step_more_state_ne_error hstep
      by_cases hss : r₁'.state = r.state
      · -- a state-preserving iteration: header or body
        cases hrs : r.state with
        | StateInit =>
          exfalso
          rw [hrs] at hss
          rw [parseStep, hrs] at hstep
          dsimp only at hstep
          split at hstep
          · exact absurd hstep (by simp)
          · exact absurd hstep (by simp)
          · simp only [StepRes.more.injEq] at hstep
            rw [← hstep.1] at hss
            simp at hss
        | StateDone => rw [parseStep, hrs] at hstep; exact absurd hstep (by simp)
        | StateError => rw [parseStep, hrs] at hstep; exact absurd hstep (by simp)
        | StateHeader =>
          have hs1 : r₁'.state = .StateHeader := by rw [hss, hrs]
          have hmain := step_header_main hrem hrs hstep hs1
          have hcont := step_header_cont hrs hstep hs1
          rw [hcont (read + n')] at hud
          refine ⟨?_, ?_, ?_, ?_⟩
          · intro r₁ n e hp
            rw [hud] at hp
            exact absurd hp (by simp)
          · intro r₁ n hrsx hp herr
            rw [hud] at hp
            simp only [PRes.ok.injEq] at hp
            rw [← hp.1] at herr
            rw [hs1] at herr
            exact absurd herr (by simp)
          · intro r₁ n hp hst
            rw [hud] at hp
            simp only [PRes.ok.injEq] at hp
            obtain ⟨h1, h2, -⟩ := hp
            refine ⟨n', by omega, hmeas.1, ?_⟩
            rw [← h1]
            exact hmain read E
          · intro hp
            rw [hud] at hp
            exact absurd hp (by simp)
        | StateBody =>
          have hs1 : r₁'.state = .StateBody := by rw [hss, hrs]
          obtain ⟨hn', hmain⟩ := step_body_body hrem hrs hstep hs1
          have hcont : parseAcc r₁' (rem.drop n') (read + n') =
              .ok r₁' (read + n') none := by
            rw [hn', List.drop_length, parseAcc_unfold]
            rfl
          rw [hcont] at hud
          refine ⟨?_, ?_, ?_, ?_⟩
          · intro r₁ n e hp
            rw [hud] at hp
            exact absurd hp (by simp)
          · intro r₁ n hrsx hp herr
            rw [hud] at hp
            simp only [PRes.ok.injEq] at hp
            rw [← hp.1] at herr
            rw [hs1] at herr
            exact absurd herr (by simp)
          · intro r₁ n hp hst
            rw [hud] at hp
            simp only [PRes.ok.injEq] at hp
            obtain ⟨h1, h2, -⟩ := hp
            refine ⟨n', by omega, hmeas.1, ?_⟩
            rw [← h1]
            exact hmain read E
          · intro hp
            rw [hud] at hp
            exact absurd hp (by simp)
      · -- a state-changing iteration extends unchanged
        have hstepE := step_more_ext (E := E) hstep hss
        rw [hstepE] at hudE
        dsimp only at hudE
        rw [List.drop_append_of_le_length hmeas.1] at hudE
        have IH := PA_append (5 * (rem.drop n').length + rank r₁'.state)
          r₁' (rem.drop n') (read + n') E rfl
        refine ⟨?_, ?_, ?_, ?_⟩
        · intro r₁ n e hp
          rw [hud] at hp
          rw [hudE]
          exact IH.1 r₁ n e hp
        · intro r₁ n hrsx hp herr
          rw [hud] at hp
          rw [hudE]
          exact IH.2.1 r₁ n hstne hp herr
        · intro r₁ n hp hst
          rw [hud] at hp
          obtain ⟨c, hc1, hc2, hc3⟩ := IH.2.2.1 r₁ n hp hst
          refine ⟨n' + c, by omega, ?_, ?_⟩
          · simp only [List.length_drop] at hc2
            omega
          · rw [hudE, hc3, List.drop_drop, ← Nat.add_assoc]
        · intro hp
          rw [hud] at hp
          rw [hudE]
          exact IH.2.2.2 hp
termination_by m
decreasing_by
  have h2 := hmeas.2
  simp only [List.length_drop] at h2 ⊢
  omega


/-- Shape of a successful parse run: the returned count is the running
count plus the consumed bytes; the consumed count is independent of the
running count; and the unconsumed leftover makes no further progress on
its own. -/
theorem PA_run_shape (m : Nat) (r : Request) (rem : Bytes) (read : Nat)
    (r₁ : Request) (n : Nat) (hm : 5 * rem.length + rank r.state = m)
    (hp : parseAcc r rem read = .ok r₁ n none) (hst : r₁.state ≠ .StateError) :
    ∃ c, n = read + c ∧ c ≤ rem.length ∧
      (∀ read', parseAcc r rem read' = .ok r₁ (read' + c) none) ∧
      (∀ read', parseAcc r₁ (rem.drop c) read' = .ok r₁ read' none) := by
  by_cases hrem : rem = []
  · subst hrem
    have hud : parseAcc r [] read = .ok r read none := by rw [parseAcc_unfold]; rfl
    rw [hud] at hp
    simp only [PRes.ok.injEq] at hp
    obtain ⟨h1, h2, -⟩ := hp
    refine ⟨0, by omega, by omega, ?_, ?_⟩
    · intro read'
      rw [parseAcc_unfold, ← h1]
      rfl
    · intro read'
      rw [List.drop_zero, parseAcc_unfold, ← h1]
      rfl
  · cases hstep : parseStep r rem with
    | stopR r₁' =>
      have heq := step_stopR_eq hstep
      have hud : ∀ rd, parseAcc r rem rd = .ok r rd none := by
        intro rd
        rw [parseAcc_unfold, if_neg hrem, hstep, heq]
      rw [hud read] at hp
      simp only [PRes.ok.injEq] at hp
      obtain ⟨h1, h2, -⟩ := hp
      refine ⟨0, by omega, by omega, ?_, ?_⟩
      · intro read'
        rw [← h1, Nat.add_zero]
        exact hud read'
      · intro read'
        rw [List.drop_zero, ← h1]
        exact hud read'
    | fail r₁' e' =>
      have hud : parseAcc r rem read = .ok r₁' 0 e' := by
        rw [parseAcc_unfold, if_neg hrem, hstep]
      rw [hud] at hp
      simp only [PRes.ok.injEq] at hp
      obtain ⟨h1, -, h3⟩ := hp
      exfalso
      apply hst
      rw [← h1]
      exact step_fail_none (h3 ▸ hstep)
    | panicked =>
      have hud : parseAcc r rem read = .panicRes := by
        rw [parseAcc_unfold, if_neg hrem, hstep]
      rw [hud] at hp
      exact absurd hp (by simp)
    | more r₁' n' =>
      have hmeas := parseStep_measure hrem hstep
      have hud : ∀ rd, parseAcc r rem rd = parseAcc r₁' (rem.drop n') (rd + n') := by
        intro rd
        rw [parseAcc_unfold, if_neg hrem, hstep]
      rw [hud read] at hp
      obtain ⟨c', hc1, hc2, hc3, hc4⟩ := PA_run_shape
        (5 * (rem.drop n').length + rank r₁'.state) r₁' (rem.drop n') (read + n')
        r₁ n rfl hp hst
      refine ⟨n' + c', by omega, ?_, ?_, ?_⟩
      · simp only [List.length_drop] at hc2
        omega
      · intro read'
        rw [hud read', hc3 (read' + n'), Nat.add_assoc]
      · intro read'
        rw [← List.drop_drop]
        exact hc4 read'
termination_by m
decreasing_by
  have h2 := hmeas.2
  simp only [List.length_drop] at h2 ⊢
  omega

/-- A parse call never reports more than the running count plus the bytes
it was given. -/
theorem PA_consumed_le (m : Nat) (r : Request) (rem : Bytes) (read : Nat)
    (r₁ : Request) (n : Nat) (e : Option ReqError)
    (hm : 5 * rem.length + rank r.state = m)
    (hp : parseAcc r rem read = .ok r₁ n e) : n ≤ read + rem.length := by
  by_cases hrem : rem = []
  · subst hrem
    have hud : parseAcc r [] read = .ok r read none := by rw [parseAcc_unfold]; rfl
    rw [hud] at hp
    simp only [PRes.ok.injEq] at hp
    omega
  · cases hstep : parseStep r rem with
    | stopR r₁' =>
      have hud : parseAcc r rem read = .ok r₁' read none := by
        rw [parseAcc_unfold, if_neg hrem, hstep]
      rw [hud] at hp
      simp only [PRes.ok.injEq] at hp
      omega
    | fail r₁' e' =>
      have hud : parseAcc r rem read = .ok r₁' 0 e' := by
        rw [parseAcc_unfold, if_neg hrem, hstep]
      rw [hud] at hp
      simp only [PRes.ok.injEq] at hp
      omega
    | panicked =>
      have hud : parseAcc r rem read = .panicRes := by
        rw [parseAcc_unfold, if_neg hrem, hstep]
      rw [hud] at hp
      exact absurd hp (by simp)
    | more r₁' n' =>
      have hmeas := parseStep_measure hrem hstep
      have hud : parseAcc r rem read = parseAcc r₁' (rem.drop n') (read + n') := by
        rw [parseAcc_unfold, if_neg hrem, hstep]
      rw [hud] at hp
      have := PA_consumed_le (5 * (rem.drop n').length + rank r₁'.state)
        r₁' (rem.drop n') (read + n') r₁ n e rfl hp
      simp only [List.length_drop] at this
      omega
termination_by m
decreasing_by
  have h2 := hmeas.2
  simp only [List.length_drop] at h2 ⊢
  omega

/-- Generic invariant preservation along a parse call: any property of the
request preserved by every loop iteration and every immediate return is
preserved by parse. -/
theorem parseAcc_preserve (P : Request → Prop)
    (hstepP : ∀ r cur r₁ n, parseStep r cur = .more r₁ n → P r → P r₁)
    (hfailP : ∀ r cur r₁ e, parseStep r cur = .fail r₁ e → P r → P r₁)
    (m : Nat) (r : Request) (rem : Bytes) (read : Nat)
    (r₁ : Request) (n : Nat) (e : Option ReqError)
    (hm : 5 * rem.length + rank r.state = m) (hP : P r)
    (hp : parseAcc r rem read = .ok r₁ n e) : P r₁ := by
  by_cases hrem : rem = []
  · subst hrem
    have hud : parseAcc r [] read = .ok r read none := by rw [parseAcc_unfold]; rfl
    rw [hud] at hp
    simp only [PRes.ok.injEq] at hp
    rw [← hp.1]
    exact hP
  · cases hstep : parseStep r rem with
    | stopR r₁' =>
      have heq := step_stopR_eq hstep
      have hud : parseAcc r rem read = .ok r read none := by
        rw [parseAcc_unfold, if_neg hrem, hstep, heq]
      rw [hud] at hp
      simp only [PRes.ok.injEq] at hp
      rw [← hp.1]
      exact hP
    | fail r₁' e' =>
      have hud : parseAcc r rem read = .ok r₁' 0 e' := by
        rw [parseAcc_unfold, if_neg hrem, hstep]
      rw [hud] at hp
      simp only [PRes.ok.injEq] at hp
      rw [← hp.1]
      exact hfailP r rem r₁' e' hstep hP
    | panicked =>
      have hud : parseAcc r rem read = .panicRes := by
        rw [parseAcc_unfold, if_neg hrem, hstep]
      rw [hud] at hp
      exact absurd hp (by simp)
    | more r₁' n' =>
      have hmeas := parseStep_measure hrem hstep
      have hud : parseAcc r rem read = parseAcc r₁' (rem.drop n') (read + n') := by
        rw [parseAcc_unfold, if_neg hrem, hstep]
      rw [hud] at hp
      exact parseAcc_preserve P hstepP hfailP
        (5 * (rem.drop n').length + rank r₁'.state) r₁' (rem.drop n') (read + n')
        r₁ n e rfl (hstepP r rem r₁' n' hstep hP) hp
termination_by m
decreasing_by
  have h2 := hmeas.2
  simp only [List.length_drop] at h2 ⊢
  omega

/-- Generic panic-freedom along a parse call. -/
theorem parseAcc_nopanic (P : Request → Prop)
    (hstepP : ∀ r cur r₁ n, parseStep r cur = .more r₁ n → P r → P r₁)
    (hnp : ∀ r cur, P r → parseStep r cur ≠ .panicked)
    (m : Nat) (r : Request) (rem : Bytes) (read : Nat)
    (hm : 5 * rem.length + rank r.state = m) (hP : P r) :
    parseAcc r rem read ≠ .panicRes := by
  by_cases hrem : rem = []
  · subst hrem
    rw [show parseAcc r [] read = .ok r read none by rw [parseAcc_unfold]; rfl]
    simp
  · cases hstep : parseStep r rem with
    | stopR r₁' =>
      rw [parseAcc_unfold, if_neg hrem, hstep]
      simp
    | fail r₁' e' =>
      rw [parseAcc_unfold, if_neg hrem, hstep]
      simp
    | panicked => exact absurd hstep (hnp r rem hP)
    | more r₁' n' =>
      have hmeas := parseStep_measure hrem hstep
      rw [parseAcc_unfold, if_neg hrem, hstep]
      exact parseAcc_nopanic P hstepP hnp
        (5 * (rem.drop n').length + rank r₁'.state) r₁' (rem.drop n') (read + n')
        rfl (hstepP r rem r₁' n' hstep hP)
termination_by m
decreasing_by
  have h2 := hmeas.2
  simp only [List.length_drop] at h2 ⊢
  omega

theorem stepInv_nopanic (r : Request) (cur : Bytes) (hP : InvP r) :
    parseStep r cur ≠ .panicked := by
  cases hstate : r.state with
  | StateError => rw [parseStep, hstate]; simp
  | StateDone => rw [parseStep, hstate]; simp
  | StateInit =>
    rw [parseStep, hstate]
    dsimp only
    split <;> simp
  | StateHeader =>
    rw [parseStep, hstate]
    dsimp only
    split
    · simp
    · split <;> simp
  | StateBody =>
    obtain ⟨hcl, hlt⟩ := hP.2 hstate
    rw [parseStep, hstate]
    dsimp only
    rw [if_neg (by unfold contentLen at hcl; omega)]
    rw [if_neg (by
      unfold contentLen at hcl hlt
      have h0c : (0 : Int) ≤ (cur.length : Int) := by positivity
      omega)]
    simp

theorem stepInv_more (r : Request) (cur : Bytes) (r₁ : Request) (n : Nat)
    (hs : parseStep r cur = .more r₁ n) (hP : InvP r) : InvP r₁ := by
  cases hstate : r.state with
  | StateError => rw [parseStep, hstate] at hs; exact absurd hs (by simp)
  | StateDone => rw [parseStep, hstate] at hs; exact absurd hs (by simp)
  | StateInit =>
    rw [parseStep, hstate] at hs
    dsimp only at hs
    split at hs
    · exact absurd hs (by simp)
    · exact absurd hs (by simp)
    · simp only [StepRes.more.injEq] at hs
      rw [← hs.1]
      constructor
      · intro hh
        exact hP.1 (Or.inl hstate)
      · intro hh
        simp at hh
  | StateHeader =>
    rw [parseStep, hstate] at hs
    dsimp only at hs
    split at hs
    · exact absurd hs (by simp)
    · split at hs
      · exact absurd hs (by simp)
      · simp only [StepRes.more.injEq] at hs
        obtain ⟨hr₁, -⟩ := hs
        have hbody : r.Body = "" := hP.1 (Or.inr hstate)
        rw [← hr₁]
        constructor
        · intro hh
          exact hbody
        · intro hh
          dsimp only at hh
          split at hh
          · rename_i hdone
            split at hh
            · rename_i hbdy
              unfold Request.hasBody at hbdy
              simp only [decide_eq_true_eq] at hbdy
              constructor
              · unfold contentLen
                dsimp only
                exact hbdy
              · unfold contentLen
                dsimp only
                rw [hbody]
                simpa using hbdy
            · simp at hh
          · simp at hh
  | StateBody =>
    obtain ⟨hcl, hlt⟩ := hP.2 hstate
    unfold contentLen at hcl hlt
    rw [parseStep, hstate] at hs
    dsimp only at hs
    split at hs
    · exact absurd hs (by simp)
    · rename_i hlen0
      split at hs
      · exact absurd hs (by simp)
      · rename_i hneg
        simp only [StepRes.more.injEq] at hs
        obtain ⟨hr₁, -⟩ := hs
        rw [← hr₁]
        constructor
        · intro hh
          dsimp only at hh
          split at hh <;> simp at hh
        · intro hh
          dsimp only at hh ⊢
          split at hh
          · simp at hh
          · rename_i hcond
            refine ⟨hcl, ?_⟩
            have hble : ((r.Body ++ String.mk (cur.take
                (min (getInt r.Headers "content-length" 0 - (r.Body.length : Int))
                  ((cur.length : Int))).toNat)).length : Int) =
                (r.Body.length : Int) + ((cur.take
                (min (getInt r.Headers "content-length" 0 - (r.Body.length : Int))
                  ((cur.length : Int))).toNat).length : Int) := by
              rw [String.length_append, Nat.cast_add]
              rfl
            have htk : ((cur.take
                (min (getInt r.Headers "content-length" 0 - (r.Body.length : Int))
                  ((cur.length : Int))).toNat).length : Int) ≤
                min (getInt r.Headers "content-length" 0 - (r.Body.length : Int))
                  ((cur.length : Int)) := by
              show (((cur.take _).length : Nat) : Int) ≤ _
              rw [List.length_take]
              omega
            rw [hble]
            rcases lt_or_eq_of_le (show ((r.Body ++ String.mk (cur.take
                (min (getInt r.Headers "content-length" 0 - (r.Body.length : Int))
                  ((cur.length : Int))).toNat)).length : Int) ≤
                getInt r.Headers "content-length" 0 from by rw [hble]; omega) with hx | hx
            · rw [hble] at hx
              exact hx
            · exact absurd hx hcond

theorem stepInv_fail (r : Request) (cur : Bytes) (r₁ : Request) (e : Option ReqError)
    (hs : parseStep r cur = .fail r₁ e) (hP : InvP r) : InvP r₁ := by
  cases hstate : r.state with
  | StateError =>
    rw [parseStep, hstate] at hs
    simp only [StepRes.fail.injEq] at hs
    rw [← hs.1]
    exact hP
  | StateDone => rw [parseStep, hstate] at hs; exact absurd hs (by simp)
  | StateInit =>
    rw [parseStep, hstate] at hs
    dsimp only at hs
    split at hs
    · simp only [StepRes.fail.injEq] at hs
      rw [← hs.1]
      constructor
      · intro hh
        simp at hh
      · intro hh
        simp at hh
    · exact absurd hs (by simp)
    · exact absurd hs (by simp)
  | StateHeader =>
    rw [parseStep, hstate] at hs
    dsimp only at hs
    split at hs
    · simp only [StepRes.fail.injEq] at hs
      rw [← hs.1]
      constructor
      · intro hh
        exact hP.1 (Or.inr hstate)
      · intro hh
        simp at hh
    · split at hs
      · exact absurd hs (by simp)
      · exact absurd hs (by simp)
  | StateBody =>
    rw [parseStep, hstate] at hs
    dsimp only at hs
    split at hs
    · exact absurd hs (by simp)
    · split at hs
      · exact absurd hs (by simp)
      · exact absurd hs (by simp)

theorem stepVer_more (r : Request) (cur : Bytes) (r₁ : Request) (n : Nat)
    (hs : parseStep r cur = .more r₁ n) (hP : versionInv r) : versionInv r₁ := by
  cases hstate : r.state with
  | StateError => rw [parseStep, hstate] at hs; exact absurd hs (by simp)
  | StateDone => rw [parseStep, hstate] at hs; exact absurd hs (by simp)
  | StateInit =>
    rw [parseStep, hstate] at hs
    dsimp only at hs
    split at hs
    · exact absurd hs (by simp)
    · exact absurd hs (by simp)
    · rename_i rl m hrl
      simp only [StepRes.more.injEq] at hs
      rw [← hs.1]
      intro hh
      exact PRL_version hrl
  | StateHeader =>
    rw [parseStep, hstate] at hs
    dsimp only at hs
    split at hs
    · exact absurd hs (by simp)
    · split at hs
      · exact absurd hs (by simp)
      · simp only [StepRes.more.injEq] at hs
        rw [← hs.1]
        intro hh
        exact hP (Or.inl hstate)
  | StateBody =>
    rw [parseStep, hstate] at hs
    dsimp only at hs
    split at hs
    · exact absurd hs (by simp)
    · split at hs
      · exact absurd hs (by simp)
      · simp only [StepRes.more.injEq] at hs
        rw [← hs.1]
        intro hh
        exact hP (Or.inr (Or.inl hstate))

theorem stepVer_fail (r : Request) (cur : Bytes) (r₁ : Request) (e : Option ReqError)
    (hs : parseStep r cur = .fail r₁ e) (hP : versionInv r) : versionInv r₁ := by
  cases hstate : r.state with
  | StateError =>
    rw [parseStep, hstate] at hs
    simp only [StepRes.fail.injEq] at hs
    rw [← hs.1]
    exact hP
  | StateDone => rw [parseStep, hstate] at hs; exact absurd hs (by simp)
  | StateInit =>
    rw [parseStep, hstate] at hs
    dsimp only at hs
    split at hs
    · simp only [StepRes.fail.injEq] at hs
      rw [← hs.1]
      intro hh
      simp at hh
    · exact absurd hs (by simp)
    · exact absurd hs (by simp)
  | StateHeader =>
    rw [parseStep, hstate] at hs
    dsimp only at hs
    split at hs
    · simp only [StepRes.fail.injEq] at hs
      rw [← hs.1]
      intro hh
      exact hP (Or.inl hstate)
    · split at hs
      · exact absurd hs (by simp)
      · exact absurd hs (by simp)
  | StateBody =>
    rw [parseStep, hstate] at hs
    dsimp only at hs
    split at hs
    · exact absurd hs (by simp)
    · split at hs
      · exact absurd hs (by simp)
      · exact absurd hs (by simp)

theorem InvP_newRequest : InvP newRequest := by
  constructor
  · intro hh
    rfl
  · intro hh
    simp [newRequest] at hh

theorem versionInv_newRequest : versionInv newRequest := by
  intro hh
  simp [newRequest] at hh

theorem Reachable_InvP {r : Request} (h : Reachable r) : InvP r := by
  induction h with
  | base => exact InvP_newRequest
  | step hr hp ih =>
    exact parseAcc_preserve InvP stepInv_more stepInv_fail _ _ _ _ _ _ _ rfl ih hp

theorem Reachable_versionInv {r : Request} (h : Reachable r) : versionInv r := by
  induction h with
  | base => exact versionInv_newRequest
  | step hr hp ih =>
    exact parseAcc_preserve versionInv stepVer_more stepVer_fail _ _ _ _ _ _ _ rfl ih hp

/-- Feeding fragments one at a time is equivalent to one complete parse,
provided the complete parse succeeds, consumes everything and ends in
StateDone. -/
theorem feed_go : ∀ (frags : List Bytes) (r : Request) (pending : Bytes) (R : Request),
    r.state ≠ .StateError →
    parseAcc r pending 0 = .ok r 0 none →
    parseAcc r (pending ++ frags.flatten) 0 =
      .ok R (pending ++ frags.flatten).length none →
    R.state = .StateDone →
    feedFrags r pending frags = some (R, []) := by
  intro frags
  induction frags with
  | nil =>
    intro r pending R hrs hinert hfull hdone
    rw [List.flatten_nil, List.append_nil] at hfull
    rw [hinert] at hfull
    simp only [PRes.ok.injEq] at hfull
    obtain ⟨h1, h2, -⟩ := hfull
    have hpe : pending = [] := List.eq_nil_of_length_eq_zero h2.symm
    rw [feedFrags, hpe, h1]
  | cons f fs ih =>
    intro r pending R hrs hinert hfull hdone
    rw [List.flatten_cons, ← List.append_assoc] at hfull
    rw [feedFrags, Request.parse]
    cases hpar : parseAcc r (pending ++ f) 0 with
    | noFuel => exact absurd hpar (parseAcc_ne_noFuel _ _ _)
    | panicRes =>
      have hx := (PA_append _ r (pending ++ f) 0 fs.flatten rfl).2.2.2 hpar
      rw [hfull] at hx
      exact absurd hx (by simp)
    | ok r₁ n e =>
      cases e with
      | some er =>
        have hx := (PA_append _ r (pending ++ f) 0 fs.flatten rfl).1 r₁ n er hpar
        rw [hfull] at hx
        exact absurd hx (by simp)
      | none =>
        by_cases hr₁s : r₁.state = .StateError
        · have hx := (PA_append _ r (pending ++ f) 0 fs.flatten rfl).2.1 r₁ n hrs hpar hr₁s
          rw [hfull] at hx
          simp only [PRes.ok.injEq] at hx
          obtain ⟨hR, -⟩ := hx
          rw [← hR] at hr₁s
          rw [hdone] at hr₁s
          exact absurd hr₁s (by simp)
        · obtain ⟨c, hc1, hc2, hc3⟩ :=
            (PA_append _ r (pending ++ f) 0 fs.flatten rfl).2.2.1 r₁ n hpar hr₁s
          rw [hfull] at hc3
          obtain ⟨c₂, hd1, hd2, hd3, -⟩ := PA_run_shape _ r₁
            ((pending ++ f).drop c ++ fs.flatten) (0 + c) R
            ((pending ++ f) ++ fs.flatten).length rfl hc3.symm (by rw [hdone]; simp)
          obtain ⟨c₀, he1, he2, -, he4⟩ := PA_run_shape _ r (pending ++ f) 0 r₁ n
            rfl hpar hr₁s
          have hc₀ : c₀ = c := by omega
          dsimp only
          rw [show n = c from by omega]
          apply ih r₁ ((pending ++ f).drop c) R hr₁s
          · rw [← hc₀]
            exact he4 0
          · rw [hd3 0]
            have hL : 0 + c₂ = ((pending ++ f).drop c ++ fs.flatten).length := by
              simp only [List.length_append, List.length_drop] at hd1 hc2 ⊢
              omega
            rw [hL]
          · exact hdone


/-- A call to Request.parse from the Init or Header state on a buffer that
contains no CRLF consumes nothing and returns without error. -/
theorem parse_needMore (r : Request) (d : Bytes)
    (hst : r.state = .StateInit ∨ r.state = .StateHeader) (hf : findCRLF d = none) :
    Request.parse r d = .ok r 0 none := by
  have hstep : parseStep r d = .stopR r := by
    rcases hst with hst | hst
    · rw [parseStep, hst, PRL_needMore hf]
    · rw [parseStep, hst]
      dsimp only
      rw [show Headers.Parse r.Headers d = ⟨r.Headers, 0, false, none⟩ from by
            rw [HP_unfold, hf]]
      dsimp only
      rw [if_pos rfl, ← hst]
  by_cases hd : d = []
  · rw [Request.parse, hd, parseAcc_unfold]
    rfl
  · rw [Request.parse, parseAcc_unfold, if_neg hd, hstep]

/-- Each loop iteration of Request.parse that consumes bytes consumes a
complete structural unit: in the line-oriented states the consumed prefix
ends with CRLF, and in the Body state the consumed count is the source's
min(content-length - len(body), len(buffer)). -/
theorem step_unit_align (r : Request) (cur : Bytes) (r₁ : Request) (n : Nat)
    (hs : parseStep r cur = .more r₁ n) (_hn : 0 < n) :
    (r.state = .StateBody ∧
       (n : Int) = min (contentLen r - (r.Body.length : Int)) (cur.length : Int)) ∨
    endsCRLF (cur.take n) := by
  cases hstate : r.state with
  | StateError => rw [parseStep, hstate] at hs; exact absurd hs (by simp)
  | StateDone => rw [parseStep, hstate] at hs; exact absurd hs (by simp)
  | StateInit =>
    rw [parseStep, hstate] at hs
    dsimp only at hs
    split at hs
    · exact absurd hs (by simp)
    · exact absurd hs (by simp)
    · rename_i rl m hrl
      simp only [StepRes.more.injEq] at hs
      obtain ⟨-, hm⟩ := hs
      obtain ⟨idx, hf, hmi, -⟩ := PRL_ok hrl
      right
      rw [← hm, hmi, findCRLF_take hf]
      exact endsCRLF_suffix _
  | StateHeader =>
    rw [parseStep, hstate] at hs
    dsimp only at hs
    split at hs
    · exact absurd hs (by simp)
    · rename_i herr
      split at hs
      · exact absurd hs (by simp)
      · rename_i hn0
        simp only [StepRes.more.injEq] at hs
        obtain ⟨-, hm⟩ := hs
        right
        rw [← hm]
        rcases HP_crlf_end cur r.Headers _ rfl herr with hz | hend
        · exact absurd hz hn0
        · exact hend
  | StateBody =>
    rw [parseStep, hstate] at hs
    dsimp only at hs
    split at hs
    · exact absurd hs (by simp)
    · rename_i hl0
      split at hs
      · exact absurd hs (by simp)
      · rename_i hneg
        simp only [StepRes.more.injEq] at hs
        obtain ⟨-, hm⟩ := hs
        left
        refine ⟨rfl, ?_⟩
        rw [← hm]
        rw [show getInt r.Headers "content-length" 0 = contentLen r from rfl] at hneg ⊢
        rw [Int.toNat_of_nonneg (by omega)]

/-- Every error parseRequestLine returns is ERROR_MALFORMED_REQUEST_LINE;
in particular the declared unsupported-version error value is never
produced. -/
theorem PRL_err_malformed {b : Bytes} {e : ReqError}
    (h : parseRequestLine b = .err e) : e = ERROR_MALFORMED_REQUEST_LINE := by
  rw [parseRequestLine] at h
  split at h
  · exact absurd h (by simp)
  · dsimp only at h
    split at h
    · split at h
      · split at h
        · exact absurd h (by simp)
        · simp only [RLRes.err.injEq] at h
          exact h.symm
      · simp only [RLRes.err.injEq] at h
        exact h.symm
    · simp only [RLRes.err.injEq] at h
      exact h.symm

/-- getInt falls back to the default when the header is absent. -/
theorem getInt_absent (h : Headers) (name : String) (d : Int)
    (hg : h.Get name = none) : getInt h name d = d := by
  rw [getInt, hg]

/-- getInt falls back to the default when the header value is not numeric. -/
theorem getInt_nonnum (h : Headers) (name v : String) (d : Int)
    (hg : h.Get name = some v) (ha : Atoi v = none) : getInt h name d = d := by
  rw [getInt, hg]
  dsimp only
  rw [ha]

/-- The loop iteration that completes the header section moves to StateBody
exactly when the stored content-length reads as a positive integer, and to
StateDone otherwise. -/
theorem step_header_done (r : Request) (cur : Bytes) (res : HPRes)
    (hstate : r.state = .StateHeader) (hres : Headers.Parse r.Headers cur = res)
    (he : res.err = none) (hn : res.n ≠ 0) (hd : res.done = true) :
    parseStep r cur = .more { r with
                              Headers := res.hdrs,
                              state := if 0 < getInt res.hdrs "content-length" 0
                                       then .StateBody else .StateDone } res.n := by
  rw [parseStep, hstate]
  dsimp only
  rw [hres, he]
  dsimp only
  rw [if_neg hn, hd]
  rw [if_pos rfl]
  simp only [Request.hasBody, decide_eq_true_eq]

/-- A Body-state iteration consumes min(content-length - len(body),
len(buffer)) bytes, appends them to the body, and moves to StateDone exactly
when the body reaches the declared content-length. -/
theorem step_body_chr (r : Request) (cur : Bytes)
    (hstate : r.state = .StateBody) (hpos : 0 < contentLen r)
    (hlt : (r.Body.length : Int) < contentLen r) :
    ∃ m : Nat, (m : Int) = min (contentLen r - (r.Body.length : Int)) (cur.length : Int) ∧
      parseStep r cur = .more { r with
                                Body := r.Body ++ String.mk (cur.take m),
                                state := if ((r.Body ++ String.mk (cur.take m)).length : Int) =
                                             contentLen r
                                         then .StateDone else .StateBody } m := by
  have h0 : (0 : Int) ≤ (cur.length : Int) := Int.natCast_nonneg _
  have hmin : (0 : Int) ≤ min (contentLen r - (r.Body.length : Int)) (cur.length : Int) := by
    omega
  refine ⟨(min (contentLen r - (r.Body.length : Int)) (cur.length : Int)).toNat,
          Int.toNat_of_nonneg hmin, ?_⟩
  rw [parseStep, hstate]
  dsimp only
  rw [show getInt r.Headers "content-length" 0 = contentLen r from rfl]
  rw [if_neg (by omega), if_neg (by omega)]

/-! The claims. -/

/-- C1: the claim that RequestFromReader surfaces a parser Error state as a
non-nil error to its caller is refuted by the code.  A stream read error is
surfaced (first conjunct), but on input "X\r\n" — a malformed request line,
which parse answers by setting the state to StateError while returning a nil
error — RequestFromReader's done() test accepts the Error state and the
function returns the half-parsed Request with a nil error: the ok result
below is exactly the nil-error return path, and no parse error is ever
surfaced for this input. -/
theorem C1_error_state_swallowed :
    RequestFromReader [.readErr] = .errRead ∧
    RequestFromReader [.chunk ("X\r\n".toList)] =
      .ok { RequestLine := {}, Headers := NewHeaders, Body := "", state := .StateError } ∧
    (∀ e : ReqError, RequestFromReader [.chunk ("X\r\n".toList)] ≠ .errParse e) := by
  refine ⟨rfl, rfl, ?_⟩
  intro e h
  rw [show RequestFromReader [.chunk ("X\r\n".toList)] =
        .ok { RequestLine := {}, Headers := NewHeaders, Body := "", state := .StateError }
      from rfl] at h
  exact absurd h (by simp)

/-- C2: fragmentation transparency.  For every well-formed request byte
string and every way of cutting it into a list of fragments, feeding the
fragments one call at a time through Request.parse — sliding the unconsumed
remainder to the front each time, as RequestFromReader does — ends with
exactly the Request that a single call on the whole message produces, and
with nothing left pending. -/
theorem C2_fragmentation_transparency (msg : Bytes) (R : Request) (frags : List Bytes)
    (hw : WellFormed msg R) (hsplit : frags.flatten = msg) :
    feedFrags newRequest [] frags = some (R, []) := by
  obtain ⟨hp, hdone⟩ := hw
  apply feed_go frags newRequest [] R (by decide)
  · rfl
  · rw [List.nil_append, hsplit]
    exact hp
  · exact hdone

/-- Witness for C2: the well-formed request of the C6 scenario, cut into
three fragments that split both the request line and a CRLF pair. -/
theorem C2_fragmentation_transparency_witness :
    WellFormed ("GET /a HTTP/1.1\r\nHost: x\r\n\r\n".toList)
      { RequestLine := { HttpVersion := "1.1", RequestTarget := "/a", Method := "GET" },
        Headers := ⟨[("host", "x")]⟩, Body := "", state := .StateDone } ∧
    feedFrags newRequest []
      ["GET /a HT".toList, "TP/1.1\r\nHos".toList, "t: x\r\n\r\n".toList] =
      some ({ RequestLine := { HttpVersion := "1.1", RequestTarget := "/a", Method := "GET" },
              Headers := ⟨[("host", "x")]⟩, Body := "", state := .StateDone }, []) :=
  ⟨⟨rfl, rfl⟩,
   C2_fragmentation_transparency ("GET /a HTTP/1.1\r\nHost: x\r\n\r\n".toList) _ _
     ⟨rfl, rfl⟩ rfl⟩

/-- C3: the claim that a three-token request line with a version other than
HTTP/1.1 fails with the unsupported-version error is refuted by the code:
on "GET /a HTTP/2.0\r\n" parseRequestLine returns
ERROR_MALFORMED_REQUEST_LINE, a value distinct from the declared (and never
used) ERROR_UNSUPPORTED_HTTP_VERSION — every error parseRequestLine can
produce is the malformed-request-line error.  The header-store part of the
claim does hold: the full scenario input leaves the store empty (and the
error is then swallowed into the Error state, see C1). -/
theorem C3_unsupported_version_unused :
    parseRequestLine ("GET /a HTTP/2.0\r\n".toList) = .err ERROR_MALFORMED_REQUEST_LINE ∧
    ERROR_MALFORMED_REQUEST_LINE ≠ ERROR_UNSUPPORTED_HTTP_VERSION ∧
    (∀ (b : Bytes) (e : ReqError), parseRequestLine b = .err e →
       e = ERROR_MALFORMED_REQUEST_LINE) ∧
    Request.parse newRequest ("GET /a HTTP/2.0\r\n\r\n".toList) =
      .ok { RequestLine := {}, Headers := NewHeaders, Body := "", state := .StateError }
        0 none :=
  ⟨rfl, by decide, fun _ _ h => PRL_err_malformed h, rfl⟩

/-- C4: one call to Request.parse consumes at least 0 and at most the length
of the supplied buffer; every byte-consuming loop iteration consumes a
complete structural unit (a CRLF-terminated prefix in the line-oriented
states, the min(remaining-needed, available) body count in the Body state),
so no consumed count splits a CRLF pair or a body segment boundary; and when
the buffer holds no complete CRLF-terminated unit for the current
line-oriented state, parse consumes 0 bytes and returns without error. -/
theorem C4_consumption_bounds :
    (∀ (r : Request) (d : Bytes) (r₁ : Request) (n : Nat) (e : Option ReqError),
       Request.parse r d = .ok r₁ n e → n ≤ d.length) ∧
    (∀ (r : Request) (cur : Bytes) (r₁ : Request) (n : Nat),
       parseStep r cur = .more r₁ n → 0 < n →
       (r.state = .StateBody ∧
          (n : Int) = min (contentLen r - (r.Body.length : Int)) (cur.length : Int)) ∨
       endsCRLF (cur.take n)) ∧
    (∀ (r : Request) (d : Bytes),
       r.state = .StateInit ∨ r.state = .StateHeader → findCRLF d = none →
       Request.parse r d = .ok r 0 none) := by
  refine ⟨?_, step_unit_align, parse_needMore⟩
  intro r d r₁ n e hp
  have hp' : parseAcc r d 0 = .ok r₁ n e := hp
  have := PA_consumed_le (5 * d.length + rank r.state) r d 0 r₁ n e rfl hp'
  omega

/-- C5: on completing the header section the parser inspects the stored
content-length through getInt (absent or non-numeric values fall back to the
default 0) and moves to StateBody exactly when it is positive, else straight
to StateDone; in StateBody each call consumes min(content-length - len(body),
len(buffer)) bytes, appends them to the body, and reaches StateDone exactly
when the body length equals content-length.  The final conjuncts run the
spec's scenario: Content-Length: 5 with the body delivered as "ab" then
"cde" stays in StateBody after the first fragment and completes with body
"abcde" only after the second. -/
theorem C5_body_state_machine :
    (∀ (r : Request) (cur : Bytes) (res : HPRes),
       r.state = .StateHeader → Headers.Parse r.Headers cur = res →
       res.err = none → res.n ≠ 0 → res.done = true →
       parseStep r cur = .more { r with
                                 Headers := res.hdrs,
                                 state := if 0 < getInt res.hdrs "content-length" 0
                                          then .StateBody else .StateDone } res.n) ∧
    (∀ (h : Headers) (name : String) (d : Int),
       h.Get name = none → getInt h name d = d) ∧
    (∀ (h : Headers) (name v : String) (d : Int),
       h.Get name = some v → Atoi v = none → getInt h name d = d) ∧
    (∀ (r : Request) (cur : Bytes),
       r.state = .StateBody → 0 < contentLen r → (r.Body.length : Int) < contentLen r →
       ∃ m : Nat,
         (m : Int) = min (contentLen r - (r.Body.length : Int)) (cur.length : Int) ∧
         parseStep r cur = .more { r with
                                   Body := r.Body ++ String.mk (cur.take m),
                                   state := if ((r.Body ++ String.mk (cur.take m)).length :
                                                 Int) = contentLen r
                                            then .StateDone else .StateBody } m) ∧
    Request.parse newRequest ("POST /a HTTP/1.1\r\nContent-Length: 5\r\n\r\n".toList) =
      .ok { RequestLine := { HttpVersion := "1.1", RequestTarget := "/a", Method := "POST" },
            Headers := ⟨[("content-length", "5")]⟩, Body := "", state := .StateBody }
        39 none ∧
    Request.parse
      { RequestLine := { HttpVersion := "1.1", RequestTarget := "/a", Method := "POST" },
        Headers := ⟨[("content-length", "5")]⟩, Body := "", state := .StateBody }
      ("ab".toList) =
      .ok { RequestLine := { HttpVersion := "1.1", RequestTarget := "/a", Method := "POST" },
            Headers := ⟨[("content-length", "5")]⟩, Body := "ab", state := .StateBody }
        2 none ∧
    Request.parse
      { RequestLine := { HttpVersion := "1.1", RequestTarget := "/a", Method := "POST" },
        Headers := ⟨[("content-length", "5")]⟩, Body := "ab", state := .StateBody }
      ("cde".toList) =
      .ok { RequestLine := { HttpVersion := "1.1", RequestTarget := "/a", Method := "POST" },
            Headers := ⟨[("content-length", "5")]⟩, Body := "abcde", state := .StateDone }
        3 none :=
  ⟨step_header_done, getInt_absent, getInt_nonnum, step_body_chr, rfl, rfl, rfl⟩

/-- C6: the complete input "GET /a HTTP/1.1\r\nHost: x\r\n\r\n" parses in
one call to a Request with method GET, target /a, version 1.1, the single
stored header host: x, an empty body and state StateDone, consuming the
whole input without error. -/
theorem C6_complete_request_scenario :
    Request.parse newRequest ("GET /a HTTP/1.1\r\nHost: x\r\n\r\n".toList) =
      .ok { RequestLine := { HttpVersion := "1.1", RequestTarget := "/a", Method := "GET" },
            Headers := ⟨[("host", "x")]⟩, Body := "", state := .StateDone }
        ("GET /a HTTP/1.1\r\nHost: x\r\n\r\n".toList).length none := rfl

/-- C7: the header store is case-insensitive and comma-joins repeated names:
for any two names with the same case-folding and any values a and b, setting
under one name and reading under the other on a fresh store yields a, and
setting both then reading yields the comma-joined a,b with no whitespace or
escaping added. -/
theorem C7_header_case_fold_join (name name' a b : String)
    (hcase : lowerStr name = lowerStr name') :
    (NewHeaders.Set name a).Get name' = some a ∧
    ((NewHeaders.Set name a).Set name' b).Get name = some (a ++ "," ++ b) := by
  constructor
  · rw [Headers.Get, Headers.Set]
    rw [show (NewHeaders.headers) = [] from rfl]
    rw [show setJoin (lowerStr name) a [] = [(lowerStr name, a)] from rfl]
    rw [List.find?_cons_of_pos _ (by simp [hcase])]
    rfl
  · rw [Headers.Get, Headers.Set, Headers.Set]
    rw [show (NewHeaders.headers) = [] from rfl]
    rw [show setJoin (lowerStr name) a [] = [(lowerStr name, a)] from rfl]
    dsimp only [setJoin]
    rw [if_pos hcase]
    rw [List.find?_cons_of_pos _ (by simp)]
    rfl

/-- Witness for C7 at the spec's concrete instances: Content-Type/content-type
and X/x. -/
theorem C7_header_case_fold_join_witness :
    (NewHeaders.Set "Content-Type" "a").Get "content-type" = some "a" ∧
    ((NewHeaders.Set "X" "a").Set "x" "b").Get "X" = some "a,b" :=
  ⟨(C7_header_case_fold_join "Content-Type" "content-type" "a" "b" rfl).1,
   (C7_header_case_fold_join "X" "x" "a" "b" rfl).2⟩

/-- C8: a Request in a completed state never exposes a version other than
"1.1": every reachable StateDone request stores HttpVersion "1.1"; the only
way a version is ever stored is through a successful parseRequestLine, whose
stored version is always "1.1"; and when the request line fails to parse the
loop keeps the old RequestLine and moves to the Error state instead of
storing anything. -/
theorem C8_version_invariant :
    (∀ r : Request, Reachable r → r.state = .StateDone →
       r.RequestLine.HttpVersion = "1.1") ∧
    (∀ (b : Bytes) (rl : RequestLine) (n : Nat),
       parseRequestLine b = .ok rl n → rl.HttpVersion = "1.1") ∧
    (∀ (r : Request) (cur : Bytes) (r₁ : Request) (e : Option ReqError),
       r.state = .StateInit → parseStep r cur = .fail r₁ e →
       r₁.RequestLine = r.RequestLine ∧ r₁.state = .StateError) := by
  refine ⟨?_, fun _ _ _ h => PRL_version h, ?_⟩
  · intro r hr hdone
    exact Reachable_versionInv hr (Or.inr (Or.inr hdone))
  · intro r cur r₁ e hstate hs
    rw [parseStep, hstate] at hs
    dsimp only at hs
    split at hs
    · simp only [StepRes.fail.injEq] at hs
      rw [← hs.1]
      exact ⟨rfl, rfl⟩
    · exact absurd hs (by simp)
    · exact absurd hs (by simp)

/-- Witness for C8: the completed request of the C6 scenario is reachable
and exposes version "1.1". -/
theorem C8_version_invariant_witness :
    ({ RequestLine := { HttpVersion := "1.1", RequestTarget := "/a", Method := "GET" },
       Headers := ⟨[("host", "x")]⟩, Body := "",
       state := .StateDone } : Request).RequestLine.HttpVersion = "1.1" :=
  C8_version_invariant.1 _
    (Reachable.step Reachable.base
      (show Request.parse newRequest ("GET /a HTTP/1.1\r\nHost: x\r\n\r\n".toList) =
          .ok { RequestLine := { HttpVersion := "1.1", RequestTarget := "/a",
                                 Method := "GET" },
                Headers := ⟨[("host", "x")]⟩, Body := "", state := .StateDone }
            28 none from rfl))
    rfl

/-- C9: Headers.Parse is not atomic on error: for every starting store and
every buffer holding one or more well-formed CRLF-terminated header lines
followed by a malformed line (and any trailing bytes), it returns the
malformed line's error with a reported consumed-byte count of 0, yet the
store it returns already holds the Set of every well-formed line that
preceded the failure.  (The statement holds a fortiori with no leading
well-formed line; the hypothesis keeps the claim's one-or-more reading.) -/
theorem C9_nonatomic_header_error (h : Headers) (ls : List Bytes) (bad rest : Bytes)
    (e : HdrError) (_hone : ls ≠ [])
    (hgood : ∀ L ∈ ls, L ≠ [] ∧ findCRLF L = none ∧ goodLine L = true)
    (hbne : bad ≠ []) (hbf : findCRLF bad = none) (hbe : lineError bad = some e) :
    Headers.Parse h
      ((ls.map (fun L => L ++ ['\r', '\n'])).flatten ++ (bad ++ '\r' :: '\n' :: rest)) =
      ⟨ls.foldl applyLine h, 0, false, some e⟩ :=
  HP_lines_err bad rest e hbne hbf hbe ls h hgood

/-- Witness for C9: two well-formed lines followed by the colon-less line
junk and a trailing byte; the malformed-line error is reported with count 0
while both preceding lines are already stored. -/
theorem C9_nonatomic_header_error_witness :
    Headers.Parse NewHeaders ("Host: x\r\nAccept: y\r\njunk\r\nZ".toList) =
      ⟨(NewHeaders.Set "Host" "x").Set "Accept" "y", 0, false, some .malformedLine⟩ :=
  C9_nonatomic_header_error NewHeaders ["Host: x".toList, "Accept: y".toList]
    ("junk".toList) ("Z".toList) .malformedLine (by decide) (by decide) (by decide)
    (by decide) (by decide)

/-- C10: the chunked-body panic (content-length read as 0 inside StateBody)
is unreachable: from newRequest, every sequence of Request.parse calls
maintains the invariant that StateBody is entered only with a positive
stored content-length exceeding the accumulated body, so no call on a
reachable request can hit either panic of the Body branch. -/
theorem C10_chunked_panic_unreachable (r : Request) (hr : Reachable r) (d : Bytes) :
    Request.parse r d ≠ .panicRes :=
  parseAcc_nopanic InvP stepInv_more stepInv_nopanic
    (5 * d.length + rank r.state) r d 0 rfl (Reachable_InvP hr)

/-- Witness for C10: a zero Content-Length request (the chunked-suspect
case) does not reach the panic from the initial state. -/
theorem C10_chunked_panic_unreachable_witness :
    Request.parse newRequest ("GET /a HTTP/1.1\r\nContent-Length: 0\r\n\r\n".toList) ≠
      .panicRes :=
  C10_chunked_panic_unreachable newRequest Reachable.base _

end TcpHttp
